import Mathlib

/-!
# Verification of `go-utils` (package `utils`)

A shallow embedding of `utils.go` (`UniqueOf`, `PointerOf`, `PackageName`), `string.go`
(`RemoveDuplicateSpaces`, `RemoveAllSpaces`, `zeroWithReplacer`) and `echo.go`
(`EchoBinderWithValidation`), together with the parts of Go's standard library these functions
call (`strings.Replacer`, `strings.Fields`, `strings.Join`, `strings.Split`, `unicode.IsSpace`,
UTF-8 decoding as done by `range` over a string).

A Go `string` is an immutable sequence of bytes that is conventionally, but not necessarily,
UTF-8: the embedding keeps that, so a string is a list of bytes and characters only appear
through decoding.
-/

namespace GoUtils

/-! ## Data model -/

/-- Dynamic values stored in a Go `[]any`, as used by `TestUniqueOf`: integers, strings and
booleans. Two interface values are equal when they have the same dynamic type and equal
values, which is constructor-wise equality here. -/
inductive GoAny where
  | int (n : Int)
  | str (s : String)
  | bool (b : Bool)
  deriving DecidableEq, Repr

/-- A Go `string`: its bytes, in order. A byte is a natural number below 256; every function
below treats a larger number as an invalid byte, and no function below produces one from
bytes. -/
abbrev GoString := List Nat

/-! ## `utils.go`: `UniqueOf` -/

/-- Local state of `UniqueOf`: the output slice `u` and the key set of the map `m`
(a `map[any]struct{}` only records which keys are present). -/
structure UniqueState (α : Type) where
  u : List α
  m : List α

/-- One iteration of the loop `for _, v := range input`: when `v` is not a key of `m`
(`if _, ok := m[v]; !ok`), record it (`m[v] = struct{}{}`) and append it to `u`. -/
def UniqueOf.step {α : Type} [DecidableEq α] (st : UniqueState α) (v : α) : UniqueState α :=
  if v ∈ st.m then st else { u := st.u ++ [v], m := v :: st.m }

/-- The function `UniqueOf[T any](input []T) []T`: start from an empty slice and an empty map,
run the loop over `input`, return `u`. -/
def UniqueOf {α : Type} [DecidableEq α] (input : List α) : List α :=
  (input.foldl UniqueOf.step { u := [], m := [] }).u

/-- The sequence of first occurrences of `xs`, in the words of the specification: position `i`
is kept exactly when no earlier position holds an equal element, and the kept elements stay in
their original order. -/
def firstOccurrences {α : Type} [DecidableEq α] (xs : List α) : List α :=
  ((List.range xs.length).filter
    (fun i => decide (∀ j, j < i → xs[j]? ≠ xs[i]?))).filterMap (fun i => xs[i]?)

/-! ## Go standard library: UTF-8 -/

/-- The constant `utf8.RuneError`, U+FFFD. -/
def RuneError : Nat := 0xFFFD

/-- The UTF-8 encoding of a rune, as `utf8.EncodeRune` and the conversion `string(r)` produce
it: one to four bytes, and the encoding of `RuneError` for a surrogate or a value above
U+10FFFF. -/
def EncodeRune (r : Nat) : GoString :=
  if r ≤ 0x7F then [r]
  else if r ≤ 0x7FF then [0xC0 + r / 64, 0x80 + r % 64]
  else if 0x10FFFF < r ∨ (0xD800 ≤ r ∧ r ≤ 0xDFFF) then [0xEF, 0xBF, 0xBD]
  else if r ≤ 0xFFFF then [0xE0 + r / 4096, 0x80 + r / 64 % 64, 0x80 + r % 64]
  else [0xF0 + r / 262144, 0x80 + r / 4096 % 64, 0x80 + r / 64 % 64, 0x80 + r % 64]

/-- The bytes of a Go string literal: the UTF-8 encoding of its characters. -/
def goString (s : String) : GoString := s.data.flatMap (fun c => EncodeRune c.toNat)

/-- The table `first` of package `utf8` for a non-ASCII lead byte: the length of the sequence
it starts and the accepted range of the second byte, or `none` for a byte that starts no
sequence (`xx`: 0x80..0xC1 and 0xF5..0xFF). -/
def first (b : Nat) : Option (Nat × Nat × Nat) :=
  if 0xC2 ≤ b ∧ b ≤ 0xDF then some (2, 0x80, 0xBF)
  else if b = 0xE0 then some (3, 0xA0, 0xBF)
  else if 0xE1 ≤ b ∧ b ≤ 0xEC then some (3, 0x80, 0xBF)
  else if b = 0xED then some (3, 0x80, 0x9F)
  else if 0xEE ≤ b ∧ b ≤ 0xEF then some (3, 0x80, 0xBF)
  else if b = 0xF0 then some (4, 0x90, 0xBF)
  else if 0xF1 ≤ b ∧ b ≤ 0xF3 then some (4, 0x80, 0xBF)
  else if b = 0xF4 then some (4, 0x80, 0x8F)
  else none

/-- The multi-byte part of `utf8.DecodeRuneInString`, for a lead byte of a sequence of `sz`
bytes whose second byte must lie in `lo..hi`. The masks `s0&mask2`, `s0&mask3`, `s0&mask4`,
`b&maskx` are written `% 32`, `% 16`, `% 8`, `% 64`, and the shifts as multiplications. A
sequence that is too short or has a byte out of range yields `(RuneError, 1)`. -/
def decodeMulti (s : GoString) (sz lo hi : Nat) : Nat × Nat :=
  let s0 := s.getD 0 0
  if s.length < sz then (RuneError, 1) else
  let s1 := s.getD 1 0
  if s1 < lo ∨ hi < s1 then (RuneError, 1) else
  if sz ≤ 2 then ((s0 % 32) * 64 + s1 % 64, 2) else
  let s2 := s.getD 2 0
  if s2 < 0x80 ∨ 0xBF < s2 then (RuneError, 1) else
  if sz ≤ 3 then ((s0 % 16) * 4096 + (s1 % 64) * 64 + s2 % 64, 3) else
  let s3 := s.getD 3 0
  if s3 < 0x80 ∨ 0xBF < s3 then (RuneError, 1) else
  ((s0 % 8) * 262144 + (s1 % 64) * 4096 + (s2 % 64) * 64 + s3 % 64, 4)

/-- The function `utf8.DecodeRuneInString`: the first rune of `s` and its width in bytes;
`(RuneError, 0)` for the empty string and `(RuneError, 1)` for an invalid encoding. This is
also what one step of `for i, r := range s` decodes. -/
def DecodeRuneInString (s : GoString) : Nat × Nat :=
  match s with
  | [] => (RuneError, 0)
  | s0 :: _ =>
    if s0 < 0x80 then (s0, 1) else
    match first s0 with
    | none => (RuneError, 1)
    | some (sz, lo, hi) => decodeMulti s sz lo hi

/-- The iteration `for i, r := range s` with at most `fuel` steps: each step yields the rune
decoded at the current position together with the bytes it spans, and advances by its
width. -/
def runesAux : Nat → GoString → List (Nat × GoString)
  | 0, _ => []
  | _, [] => []
  | fuel + 1, b :: t =>
    ((DecodeRuneInString (b :: t)).1, (b :: t).take (DecodeRuneInString (b :: t)).2) ::
      runesAux fuel ((b :: t).drop (DecodeRuneInString (b :: t)).2)

/-- The iteration `for i, r := range s`, run to the end of `s`: every step consumes at least
one byte, so `len(s)` steps suffice. -/
def runes (s : GoString) : List (Nat × GoString) := runesAux s.length s

/-- The conversion `[]rune(s)`: the runes that ranging over `s` yields. -/
def toRunes (s : GoString) : List Nat := (runes s).map Prod.fst

/-- The bytes spanned by a list of decoded runes. -/
def bytesOf (us : List (Nat × GoString)) : GoString := us.flatMap (fun u => u.2)

/-- The function `utf8.ValidString`: `s` consists entirely of valid UTF-8, that is, ranging
over it never yields `RuneError` for a single invalid byte. -/
def ValidString (s : GoString) : Bool :=
  (runes s).all (fun u => !(u.1 == RuneError && u.2.length == 1))

/-- A continuation byte, `0x80..0xBF`. -/
def isCont (b : Nat) : Prop := 0x80 ≤ b ∧ b ≤ 0xBF

instance (b : Nat) : Decidable (isCont b) := by unfold isCont; infer_instance

/-- Lowest accepted second byte after a three-byte lead byte `a`. -/
def lo3 (a : Nat) : Nat := if a = 0xE0 then 0xA0 else 0x80

/-- Highest accepted second byte after a three-byte lead byte `a`. -/
def hi3 (a : Nat) : Nat := if a = 0xED then 0x9F else 0xBF

/-- Lowest accepted second byte after a four-byte lead byte `a`. -/
def lo4 (a : Nat) : Nat := if a = 0xF0 then 0x90 else 0x80

/-- Highest accepted second byte after a four-byte lead byte `a`. -/
def hi4 (a : Nat) : Nat := if a = 0xF4 then 0x8F else 0xBF

/-- A decoded rune whose bytes decode to it whatever follows them. -/
def selfDelimiting (u : Nat × GoString) : Prop :=
  u.2 ≠ [] ∧ ∀ rest, DecodeRuneInString (u.2 ++ rest) = (u.1, u.2.length)

/-! ## Go standard library: `unicode.IsSpace`, `strings.Fields`, `strings.Join` -/

/-- The function `unicode.IsSpace`: in Latin-1 the runes tab, LF, VT, FF, CR, space, U+0085 and
U+00A0; above it the `White_Space` table: U+1680, U+2000..U+200A, U+2028, U+2029, U+202F,
U+205F, U+3000. -/
def IsSpace (r : Nat) : Bool :=
  if r ≤ 0xFF then
    r = 0x09 ∨ r = 0x0A ∨ r = 0x0B ∨ r = 0x0C ∨ r = 0x0D ∨ r = 0x20 ∨ r = 0x85 ∨ r = 0xA0
  else
    r = 0x1680 ∨ (0x2000 ≤ r ∧ r ≤ 0x200A) ∨ r = 0x2028 ∨ r = 0x2029 ∨ r = 0x202F ∨
      r = 0x205F ∨ r = 0x3000

/-- Local state of `strings.FieldsFunc`: the recorded spans, as the substrings they denote, and
the field in progress (`none` when `start < 0`, otherwise the bytes `s[start:end]` read so
far). -/
structure FieldsState where
  spans : List GoString
  start : Option GoString

/-- One iteration of the loop of `strings.FieldsFunc`: a separator rune closes the field in
progress, any other rune starts a field or extends the one in progress. -/
def FieldsFunc.step (f : Nat → Bool) (st : FieldsState) (u : Nat × GoString) : FieldsState :=
  if f u.1 then
    match st.start with
    | some fld => { spans := st.spans ++ [fld], start := none }
    | none => st
  else
    match st.start with
    | some fld => { spans := st.spans, start := some (fld ++ u.2) }
    | none => { spans := st.spans, start := some u.2 }

/-- The end of `strings.FieldsFunc`: a field still in progress ends at the end of the
string. -/
def FieldsFunc.finish (st : FieldsState) : List GoString :=
  match st.start with
  | some fld => st.spans ++ [fld]
  | none => st.spans

/-- The function `strings.FieldsFunc(s, f)`: range over `s` and collect the maximal substrings
none of whose runes satisfies `f`. -/
def FieldsFunc (s : GoString) (f : Nat → Bool) : List GoString :=
  FieldsFunc.finish ((runes s).foldl (FieldsFunc.step f) { spans := [], start := none })

/-- The function `strings.Fields`: split `s` around each run of white space, as defined by
`unicode.IsSpace`. The library answers with `FieldsFunc(s, unicode.IsSpace)` when `s` has a
non-ASCII byte and otherwise with a byte loop over the six ASCII white-space characters, which
computes the same fields. -/
def Fields (s : GoString) : List GoString := FieldsFunc s IsSpace

/-- The function `strings.Join`: the elements, with `sep` between consecutive ones. -/
def Join : List GoString → GoString → GoString
  | [], _ => []
  | [e], _ => e
  | e :: e2 :: es, sep => e ++ sep ++ Join (e2 :: es) sep

/-! ## Go standard library: `strings.Replacer` -/

/-- The lookup of a `strings.Replacer` at the start of `s`: the first pair, in argument order,
whose old string is a prefix of `s`. Old strings are taken to be non-empty, as all of
`zeroWithReplacer` are. -/
def Replacer.lookup (oldnew : List (GoString × GoString)) (s : GoString) :
    Option (GoString × GoString) :=
  oldnew.find? (fun p => p.1 ≠ [] ∧ p.1 <+: s)

/-- The scan of `Replacer.Replace` with at most `fuel` steps: at a match, write the new string
and skip the old one; otherwise copy one byte. Matches are taken left to right and do not
overlap. -/
def Replacer.replaceAux (oldnew : List (GoString × GoString)) : Nat → GoString → GoString
  | 0, _ => []
  | _, [] => []
  | fuel + 1, b :: t =>
    match Replacer.lookup oldnew (b :: t) with
    | some (old, new) => new ++ Replacer.replaceAux oldnew fuel ((b :: t).drop old.length)
    | none => b :: Replacer.replaceAux oldnew fuel t

/-- The method `(*strings.Replacer).Replace`: every step consumes at least one byte, so
`len(s)` steps suffice. -/
def Replacer.Replace (oldnew : List (GoString × GoString)) (s : GoString) : GoString :=
  Replacer.replaceAux oldnew s.length s

/-! ## `string.go` -/

def zeroWidthSpace : Nat := 0x200B

def zeroWidthNoBreakSpace : Nat := 0xFEFF

def wordJoiner : Nat := 0x2060

def zeroWidthJoiner : Nat := 0x200D

def leftToRightMark : Nat := 0x200E

def rightToLeftMark : Nat := 0x200F

def noBreakingSpace : Nat := 0x00A0

def empty : GoString := []

/-- The replacer `zeroWithReplacer`: the arguments of `strings.NewReplacer`, as pairs
`(old, new)`. -/
def zeroWithReplacer : List (GoString × GoString) :=
  [ (EncodeRune zeroWidthSpace, empty),
    (EncodeRune zeroWidthNoBreakSpace, empty),
    (EncodeRune wordJoiner, empty),
    (EncodeRune zeroWidthJoiner, empty),
    (EncodeRune leftToRightMark, empty),
    (EncodeRune rightToLeftMark, empty),
    (EncodeRune noBreakingSpace, empty) ]

/-- The method `StringUtil.RemoveDuplicateSpaces`. -/
def RemoveDuplicateSpaces (s : GoString) : GoString :=
  Join (Fields (Replacer.Replace zeroWithReplacer s)) [0x20]

/-- The method `StringUtil.RemoveAllSpaces`. -/
def RemoveAllSpaces (s : GoString) : GoString :=
  Join (Fields (Replacer.Replace zeroWithReplacer s)) []

/-! ## Specification-side definitions -/

/-- The seven denylisted invisible characters of the specification. -/
def denylist : List Nat :=
  [zeroWidthSpace, zeroWidthNoBreakSpace, wordJoiner, zeroWidthJoiner, leftToRightMark,
    rightToLeftMark, noBreakingSpace]

/-- Specification step 1: delete every occurrence of a denylisted character from `s`. -/
def specDelete (s : GoString) : GoString :=
  bytesOf ((runes s).filter (fun u => decide (u.1 ∉ denylist)))

/-- Specification step 2: split `t` at its white-space characters and discard the empty
fragments, which leaves the fragments between maximal runs of white space. -/
def specSplit (t : GoString) : List GoString :=
  (((runes t).splitOnP (fun u => IsSpace u.1)).map bytesOf).filter (fun f => decide (f ≠ []))

/-- Specification step 3: join the fragments with exactly one ASCII space. -/
def specJoin (frags : List GoString) : GoString := List.intercalate [0x20] frags

/-- The specification of `RemoveDuplicateSpaces`: delete, then split, then join. -/
def specRemoveDuplicateSpaces (s : GoString) : GoString := specJoin (specSplit (specDelete s))

/-- The specification of `RemoveAllSpaces`: `s` with every denylisted character and every
white-space character deleted and every other character kept, in order. -/
def specRemoveAllSpaces (s : GoString) : GoString :=
  bytesOf ((runes s).filter (fun u => decide (u.1 ∉ denylist) && !IsSpace u.1))

/-! ## Auxiliary definitions for the proofs -/

/-- The maximal runs of non-separator runes of a rune list, with `cur` the run in progress. -/
def runsGo (f : Nat → Bool) (cur : List (Nat × GoString)) :
    List (Nat × GoString) → List (List (Nat × GoString))
  | [] => if cur = [] then [] else [cur]
  | u :: us =>
    if f u.1 then (if cur = [] then [] else [cur]) ++ runsGo f [] us
    else runsGo f (cur ++ [u]) us

/-- The `start` field of `FieldsState` when the run in progress is `cur`. -/
def startOf (cur : List (Nat × GoString)) : Option GoString :=
  if cur = [] then none else some (bytesOf cur)

/-- The ASCII space, as a decoded rune. -/
def spaceUnit : Nat × GoString := (0x20, [0x20])

/-- Runs of runes with one ASCII space between consecutive runs. -/
def joinUnits : List (List (Nat × GoString)) → List (Nat × GoString)
  | [] => []
  | [r] => r
  | r :: r2 :: rs => r ++ spaceUnit :: joinUnits (r2 :: rs)

/-! ## `utils.go`: pointers, `PointerOf`, `ValueOf` -/

/-- A Go pointer `*T`: `nil` (`none`) or the address of a variable. Two pointers are `==`
exactly when both are `nil` or both hold the same address. -/
abbrev Ptr := Option Nat

/-- The variables of type `T` that pointers refer to: cell `a` is the variable at address
`a`. -/
structure Heap (α : Type) where
  cells : List α

/-- The value `*p`, if `p` is not `nil` and refers to a variable of the heap. -/
def Heap.deref {α : Type} (h : Heap α) (p : Ptr) : Option α :=
  match p with
  | none => none
  | some a => h.cells[a]?

/-- The function `PointerOf[T any](v T) *T { return &v }`: the parameter `v` is a new variable
holding a copy of the argument, and its address is returned. The result is the pointer
together with the heap after the call. -/
def PointerOf {α : Type} (h : Heap α) (v : α) : Ptr × Heap α :=
  (some h.cells.length, { cells := h.cells ++ [v] })

/-- The zero value of a Go type (`var zero T`). -/
class GoZero (α : Type) where
  zero : α

instance : GoZero Int := ⟨0⟩

instance : GoZero String := ⟨""⟩

instance : GoZero Float := ⟨0.0⟩

instance : GoZero Bool := ⟨false⟩

/-- Modelled from the spec: `ValueOf` is called by `TestValueOf` but its declaration is not
among the sources. The specification gives `ValueOf(ref) -> value`: if `ref` denotes "absent"
it returns the default value of the value's type, otherwise it returns the referenced value by
copy, and it never fails. A Go pointer is never dangling; for an address outside the heap the
model answers with the default value as well. -/
def ValueOf {α : Type} [GoZero α] (h : Heap α) (ref : Ptr) : α :=
  match h.deref ref with
  | some v => v
  | none => GoZero.zero

/-! ## Dynamic values, comparability and run-time panics -/

/-- Values of arbitrary Go types, as far as `UniqueOf` can tell them apart: basic values,
pointers, struct values with fields of basic types, and the two kinds of value that are not
comparable, slices and maps. On the comparable ones Go's `==` (and the equality of map keys of
type `any`) is the equality of this type: equal basic values, the same address, equal
fields. -/
inductive GoValue where
  | basic (v : GoAny)
  | ptr (p : Ptr)
  | structv (fields : List GoAny)
  | slice (elems : List GoAny)
  | mapv (entries : List (GoAny × GoAny))
  deriving DecidableEq, Repr

/-- Whether a value can be a key of a `map[any]struct{}`: slices and maps cannot. -/
def hashable : GoValue → Bool
  | GoValue.slice _ => false
  | GoValue.mapv _ => false
  | _ => true

/-- Whether a value is a pointer. -/
def isPtr : GoValue → Bool
  | GoValue.ptr _ => true
  | _ => false

/-- Structural (deep) equality of two values in a heap, the equality the specification speaks
of: like `==`, except that two pointers are equal when the values they refer to are. -/
def deepEq (h : Heap GoAny) : GoValue → GoValue → Bool
  | GoValue.basic a, GoValue.basic b => decide (a = b)
  | GoValue.ptr p, GoValue.ptr q => decide (h.deref p = h.deref q)
  | GoValue.structv f, GoValue.structv g => decide (f = g)
  | GoValue.slice a, GoValue.slice b => decide (a = b)
  | GoValue.mapv a, GoValue.mapv b => decide (a = b)
  | _, _ => false

/-- How a call ends: it returns a result, or it panics. -/
inductive Outcome (ρ : Type) where
  | returned (r : ρ)
  | panicked (msg : String)
  deriving DecidableEq, Repr

/-- One iteration of the loop of `UniqueOf` on dynamic values: the map access `m[v]` hashes the
key and panics when its dynamic type is not comparable, whether or not the map is empty;
otherwise the iteration is `UniqueOf.step`. -/
def UniqueOf.stepDyn (st : Outcome (UniqueState GoValue)) (v : GoValue) :
    Outcome (UniqueState GoValue) :=
  match st with
  | Outcome.panicked msg => Outcome.panicked msg
  | Outcome.returned s =>
    if hashable v then Outcome.returned (UniqueOf.step s v)
    else Outcome.panicked "runtime error: hash of unhashable type"

/-- The function `UniqueOf` on dynamic values, with the panic of the map access: its only
result is the slice `u`, it has no error result. The constraint on `T` is `any`, so every list
of values is a well-typed argument. -/
def UniqueOfDyn (input : List GoValue) : Outcome (List GoValue) :=
  match input.foldl UniqueOf.stepDyn (Outcome.returned { u := [], m := [] }) with
  | Outcome.returned s => Outcome.returned s.u
  | Outcome.panicked msg => Outcome.panicked msg

/-! ## `echo.go`: `EchoBinderWithValidation` -/

/-- An `*echo.HTTPError`: its status code and its `Message`, a field of type `interface{}`.
`echo.NewHTTPError(code, text)` stores the string `text` there; other code may store a value of
any type. -/
structure HTTPError where
  code : Nat
  message : GoValue
  deriving DecidableEq, Repr

/-- Values of Go's `error` interface that the methods return: an error made by `errors.New`,
or an error of another type, as `ValidateStruct` may return, with its text. -/
inductive GoError where
  | errorString (text : String)
  | other (text : String)
  deriving DecidableEq, Repr

/-- The five binding methods of the embedded `echo.DefaultBinder`, which is not part of the
sources: each takes the target `i` and the context `c` and gives back an error or `nil`,
together with the target as it left it. Every error of the default binder is an
`*echo.HTTPError`: it wraps the errors it meets with `echo.NewHTTPError(code, err.Error())`,
whose `Message` is a string, and `BindBody` (and `Bind`, which ends with it) hands on unchanged
an `*echo.HTTPError` returned by the JSON serializer of the echo instance, whose `Message` is
whatever that serializer stored. -/
structure DefaultBinder (τ κ : Type) where
  Bind : τ → κ → Option HTTPError × τ
  BindBody : κ → τ → Option HTTPError × τ
  BindHeaders : κ → τ → Option HTTPError × τ
  BindPathParams : κ → τ → Option HTTPError × τ
  BindQueryParams : κ → τ → Option HTTPError × τ

/-- What a method of `EchoBinderWithValidation` leaves behind: the returned error or `nil`, the
target, and whether `ValidateStruct` was called. -/
structure BinderResult (τ : Type) where
  err : Option GoError
  target : τ
  validated : Bool
  deriving DecidableEq, Repr

/-- The expression `err.(*echo.HTTPError).Message.(string)`. The first type assertion holds for
every error of the default binder; the second is made without the comma-ok form and panics
when `Message` is not a string. -/
def assertMessage (err : HTTPError) : Outcome String :=
  match err.message with
  | GoValue.basic (GoAny.str msg) => Outcome.returned msg
  | _ => Outcome.panicked "interface conversion: interface {} is not string"

/-- The body shared by the five methods, after the call of the default binder returned `r`:
`if err != nil { return errors.New(message) }; return ValidateStruct(i)`, where
`ValidateStruct` is a function of the package that is not among the sources. -/
def afterBind {τ : Type} (ValidateStruct : τ → Option GoError) (r : Option HTTPError × τ) :
    Outcome (BinderResult τ) :=
  match r.1 with
  | some err =>
    match assertMessage err with
    | Outcome.returned msg =>
      Outcome.returned
        { err := some (GoError.errorString msg), target := r.2, validated := false }
    | Outcome.panicked msg => Outcome.panicked msg
  | none => Outcome.returned { err := ValidateStruct r.2, target := r.2, validated := true }

/-- The method `(*EchoBinderWithValidation).Bind`. -/
def EchoBinderWithValidation.Bind {τ κ : Type} (b : DefaultBinder τ κ)
    (ValidateStruct : τ → Option GoError) (i : τ) (c : κ) : Outcome (BinderResult τ) :=
  afterBind ValidateStruct (b.Bind i c)

/-- The method `(*EchoBinderWithValidation).BindBody`. -/
def EchoBinderWithValidation.BindBody {τ κ : Type} (b : DefaultBinder τ κ)
    (ValidateStruct : τ → Option GoError) (c : κ) (i : τ) : Outcome (BinderResult τ) :=
  afterBind ValidateStruct (b.BindBody c i)

/-- The method `(*EchoBinderWithValidation).BindHeaders`. -/
def EchoBinderWithValidation.BindHeaders {τ κ : Type} (b : DefaultBinder τ κ)
    (ValidateStruct : τ → Option GoError) (c : κ) (i : τ) : Outcome (BinderResult τ) :=
  afterBind ValidateStruct (b.BindHeaders c i)

/-- The method `(*EchoBinderWithValidation).BindPathParams`. -/
def EchoBinderWithValidation.BindPathParams {τ κ : Type} (b : DefaultBinder τ κ)
    (ValidateStruct : τ → Option GoError) (c : κ) (i : τ) : Outcome (BinderResult τ) :=
  afterBind ValidateStruct (b.BindPathParams c i)

/-- The method `(*EchoBinderWithValidation).BindQueryParams`. -/
def EchoBinderWithValidation.BindQueryParams {τ κ : Type} (b : DefaultBinder τ κ)
    (ValidateStruct : τ → Option GoError) (c : κ) (i : τ) : Outcome (BinderResult τ) :=
  afterBind ValidateStruct (b.BindQueryParams c i)

/-! ## `utils.go`: `PackageName` -/

/-- The scan of `strings.Split(s, sep)` for a non-empty `sep`, with at most `fuel` steps:
`cur` is the piece read so far; at the leftmost occurrence of `sep` the piece ends and the
scan goes on behind it. -/
def Split.go (sep : GoString) : Nat → GoString → GoString → List GoString
  | 0, cur, _ => [cur]
  | _, cur, [] => [cur]
  | fuel + 1, cur, b :: t =>
    if sep ≠ [] ∧ sep <+: b :: t then
      cur :: Split.go sep fuel [] ((b :: t).drop sep.length)
    else Split.go sep fuel (cur ++ [b]) t

/-- The function `strings.Split(s, sep)` for a non-empty separator: the pieces of `s` between
the occurrences of `sep`; one more piece than there are occurrences, so never an empty
slice. -/
def Split (s sep : GoString) : List GoString := Split.go sep s.length [] s

/-- The function `PackageName`, as a function of the name `n` that
`runtime.FuncForPC(pc).Name()` reports for the caller (the empty string when the runtime knows
no function for `pc`). An index out of range is a panic. -/
def PackageName (n : GoString) : Outcome GoString :=
  let parts := Split n [0x2F]
  match parts[parts.length - 1]? with
  | none => Outcome.panicked "runtime error: index out of range"
  | some last =>
    let pkg := Split last [0x2E]
    match pkg[0]? with
    | none => Outcome.panicked "runtime error: index out of range"
    | some p => Outcome.returned p

/-- The last `/`-separated segment of a name, in the words of the specification: what follows
the last `/`, or the whole name when it has none. -/
def lastSegment (n : GoString) : GoString := (n.reverse.takeWhile (fun b => b ≠ 0x2F)).reverse

/-- The part of a segment that precedes its first `.`. -/
def beforeFirstDot (seg : GoString) : GoString := seg.takeWhile (fun b => b ≠ 0x2E)

/-! ## The reversed pipeline of the design rationale -/

/-- The pipeline of `RemoveDuplicateSpaces` in the reversed order the specification warns
against: split on white space first, then delete the denylisted characters from each fragment,
then join with one ASCII space. -/
def reversedPipeline (s : GoString) : GoString :=
  Join ((Fields s).map (Replacer.Replace zeroWithReplacer)) [0x20]

/-- A word: a non-empty string of valid UTF-8 with no white-space and no denylisted
character. -/
def isWord (u : GoString) : Bool :=
  ValidString u && decide (u ≠ []) &&
    (toRunes u).all (fun c => !IsSpace c && decide (c ∉ denylist))

/-- A default binder whose five methods all return `e` and leave the target as it is; used to
evaluate the binder at concrete inputs. -/
def binderReturning (e : Option HTTPError) : DefaultBinder Nat Unit where
  Bind := fun i _ => (e, i)
  BindBody := fun _ i => (e, i)
  BindHeaders := fun _ i => (e, i)
  BindPathParams := fun _ i => (e, i)
  BindQueryParams := fun _ i => (e, i)

/-- A default binder on a request whose JSON body the serializer of the echo instance rejects
with the `*echo.HTTPError` `e`: `BindBody`, and `Bind` through it, hand `e` on; the other
three methods do not read the body and succeed. -/
def binderPassingOn (e : HTTPError) : DefaultBinder Nat Unit where
  Bind := fun i _ => (some e, i)
  BindBody := fun _ i => (some e, i)
  BindHeaders := fun _ i => (none, i)
  BindPathParams := fun _ i => (none, i)
  BindQueryParams := fun _ i => (none, i)

/-! ## Lemmas -/

/-! ### `UniqueOf` -/

theorem UniqueOf_mem_seen {α : Type} [DecidableEq α] (xs : List α) (v : α) :
    v ∈ (xs.foldl UniqueOf.step { u := [], m := [] }).m ↔ v ∈ xs := by
  induction xs using List.reverseRecOn with
  | nil => simp
  | append_singleton xs x ih =>
    rw [List.foldl_append]
    simp only [List.foldl_cons, List.foldl_nil, UniqueOf.step]
    by_cases hx : x ∈ (xs.foldl UniqueOf.step { u := [], m := [] }).m
    · rw [if_pos hx, ih, List.mem_append, List.mem_singleton]
      constructor
      · exact Or.inl
      · rintro (h | h)
        · exact h
        · subst h; exact ih.1 hx
    · rw [if_neg hx]
      simp only [List.mem_cons, List.mem_append, List.mem_singleton, ih]
      tauto

theorem UniqueOf_snoc {α : Type} [DecidableEq α] (xs : List α) (x : α) :
    UniqueOf (xs ++ [x]) = if x ∈ xs then UniqueOf xs else UniqueOf xs ++ [x] := by
  unfold UniqueOf
  rw [List.foldl_append]
  simp only [List.foldl_cons, List.foldl_nil, UniqueOf.step, UniqueOf_mem_seen]
  split <;> rfl

theorem UniqueOf_nil {α : Type} [DecidableEq α] : UniqueOf ([] : List α) = [] := rfl

theorem UniqueOf_mem_iff {α : Type} [DecidableEq α] (xs : List α) (v : α) :
    v ∈ UniqueOf xs ↔ v ∈ xs := by
  induction xs using List.reverseRecOn with
  | nil => simp [UniqueOf_nil]
  | append_singleton xs x ih =>
    rw [UniqueOf_snoc]
    split
    · rename_i hx
      rw [ih, List.mem_append, List.mem_singleton]
      constructor
      · exact Or.inl
      · rintro (h | h)
        · exact h
        · subst h; exact hx
    · simp only [List.mem_append, List.mem_singleton, ih]

theorem UniqueOf_nodup {α : Type} [DecidableEq α] (xs : List α) : (UniqueOf xs).Nodup := by
  induction xs using List.reverseRecOn with
  | nil => simp [UniqueOf_nil]
  | append_singleton xs x ih =>
    rw [UniqueOf_snoc]
    split
    · exact ih
    · rename_i hx
      rw [List.nodup_append]
      refine ⟨ih, List.nodup_singleton x, ?_⟩
      intro a ha hb
      rw [List.mem_singleton] at hb
      subst hb
      exact hx ((UniqueOf_mem_iff xs a).1 ha)

theorem UniqueOf_sublist {α : Type} [DecidableEq α] (xs : List α) : List.Sublist (UniqueOf xs) xs := by
  induction xs using List.reverseRecOn with
  | nil => simp [UniqueOf_nil]
  | append_singleton xs x ih =>
    rw [UniqueOf_snoc]
    split
    · exact ih.trans (List.sublist_append_left xs [x])
    · exact List.Sublist.append ih (List.Sublist.refl [x])

theorem UniqueOf_of_nodup {α : Type} [DecidableEq α] (l : List α) (h : l.Nodup) : UniqueOf l = l := by
  induction l using List.reverseRecOn with
  | nil => rfl
  | append_singleton l x ih =>
    rw [List.nodup_append] at h
    obtain ⟨h1, -, h3⟩ := h
    have hx : x ∉ l := fun hm => h3 hm (List.mem_singleton_self x)
    rw [UniqueOf_snoc, if_neg hx, ih h1]

theorem firstOccurrences_snoc {α : Type} [DecidableEq α] (xs : List α) (x : α) :
    firstOccurrences (xs ++ [x]) =
      if x ∈ xs then firstOccurrences xs else firstOccurrences xs ++ [x] := by
  unfold firstOccurrences
  rw [List.length_append, List.length_singleton, List.range_succ, List.filter_append,
    List.filterMap_append]
  have hget : ∀ i, i < xs.length → (xs ++ [x])[i]? = xs[i]? := fun i hi =>
    List.getElem?_append_left hi
  have hlast : (xs ++ [x])[xs.length]? = some x := by
    rw [List.getElem?_append_right (Nat.le_refl _)]; simp
  have hpre : ((List.range xs.length).filter
        (fun i => decide (∀ j, j < i → (xs ++ [x])[j]? ≠ (xs ++ [x])[i]?))).filterMap
        (fun i => (xs ++ [x])[i]?) =
      ((List.range xs.length).filter
        (fun i => decide (∀ j, j < i → xs[j]? ≠ xs[i]?))).filterMap (fun i => xs[i]?) := by
    have hf : (List.range xs.length).filter
          (fun i => decide (∀ j, j < i → (xs ++ [x])[j]? ≠ (xs ++ [x])[i]?)) =
        (List.range xs.length).filter (fun i => decide (∀ j, j < i → xs[j]? ≠ xs[i]?)) := by
      apply List.filter_congr
      intro i hi
      rw [List.mem_range] at hi
      rw [hget i hi]
      apply decide_eq_decide.2
      constructor
      · intro h j hj; rw [← hget j (Nat.lt_trans hj hi)]; exact h j hj
      · intro h j hj; rw [hget j (Nat.lt_trans hj hi)]; exact h j hj
    rw [hf]
    apply List.filterMap_congr
    intro i hi
    exact hget i (List.mem_range.1 (List.mem_filter.1 hi).1)
  rw [hpre]
  have hiff : (∀ j, j < xs.length → (xs ++ [x])[j]? ≠ (xs ++ [x])[xs.length]?) ↔ x ∉ xs := by
    rw [hlast]
    constructor
    · intro h hm
      obtain ⟨j, hj, hjx⟩ := List.mem_iff_getElem.1 hm
      apply h j hj
      rw [hget j hj, List.getElem?_eq_getElem hj, hjx]
    · intro h j hj he
      rw [hget j hj] at he
      exact h (List.mem_iff_getElem?.2 ⟨j, he⟩)
  by_cases hx : x ∈ xs
  · have hd : decide (∀ j, j < xs.length → (xs ++ [x])[j]? ≠ (xs ++ [x])[xs.length]?) = false :=
      decide_eq_false (fun h => hiff.1 h hx)
    simp only [List.filter_cons, List.filter_nil, hd, if_pos hx]
    simp
  · have hd : decide (∀ j, j < xs.length → (xs ++ [x])[j]? ≠ (xs ++ [x])[xs.length]?) = true :=
      decide_eq_true (hiff.2 hx)
    simp only [List.filter_cons, List.filter_nil, hd, if_neg hx]
    simp [hlast]

theorem UniqueOf_eq_firstOccurrences {α : Type} [DecidableEq α] (xs : List α) : UniqueOf xs = firstOccurrences xs := by
  induction xs using List.reverseRecOn with
  | nil => rfl
  | append_singleton xs x ih => rw [UniqueOf_snoc, firstOccurrences_snoc, ih]

/-! ### UTF-8 decoding -/

theorem exists_cons_of_pos (t : GoString) (h : 0 < t.length) : ∃ b t', t = b :: t' := by
  cases t with
  | nil => simp at h
  | cons b t' => exact ⟨b, t', rfl⟩

theorem first_cases (a : Nat) :
    (first a = none ∧ (a < 0xC2 ∨ 0xF4 < a)) ∨
    (first a = some (2, 0x80, 0xBF) ∧ 0xC2 ≤ a ∧ a ≤ 0xDF) ∨
    (first a = some (3, lo3 a, hi3 a) ∧ 0xE0 ≤ a ∧ a ≤ 0xEF) ∨
    (first a = some (4, lo4 a, hi4 a) ∧ 0xF0 ≤ a ∧ a ≤ 0xF4) := by
  unfold first lo3 hi3 lo4 hi4
  split_ifs <;> simp <;> omega

theorem DecodeRuneInString_ascii (a : Nat) (t : GoString) (h : a < 0x80) :
    DecodeRuneInString (a :: t) = (a, 1) := by
  unfold DecodeRuneInString
  simp only [if_pos h]

theorem DecodeRuneInString_one (a : Nat) (t : GoString) (r : Nat) (h : DecodeRuneInString (a :: t) = (r, 1)) :
    (a < 0x80 ∧ r = a) ∨ r = RuneError := by
  unfold DecodeRuneInString at h
  by_cases h0 : a < 0x80
  · simp only [if_pos h0, Prod.mk.injEq] at h; omega
  · right
    show r = 0xFFFD
    simp only [if_neg h0] at h
    rcases first_cases a with ⟨hf, h'⟩ | ⟨hf, h'⟩ | ⟨hf, h'⟩ | ⟨hf, h'⟩ <;> rw [hf] at h <;>
      simp only [decodeMulti, List.getD_cons_zero, List.getD_cons_succ, List.length_cons] at h
    · simp only [Prod.mk.injEq, RuneError] at h; omega
    all_goals
      split_ifs at h <;> simp only [Prod.mk.injEq, RuneError, and_true, reduceCtorEq] at h <;> omega

theorem DecodeRuneInString_two (a b : Nat) (t : GoString) (r : Nat) :
    DecodeRuneInString (a :: b :: t) = (r, 2) ↔
      0xC2 ≤ a ∧ a ≤ 0xDF ∧ isCont b ∧ r = (a % 32) * 64 + b % 64 := by
  unfold DecodeRuneInString
  simp only [isCont]
  by_cases h0 : a < 0x80
  · simp only [if_pos h0, Prod.mk.injEq]; omega
  · simp only [if_neg h0]
    rcases first_cases a with ⟨hf, h⟩ | ⟨hf, h⟩ | ⟨hf, h⟩ | ⟨hf, h⟩ <;> rw [hf] <;>
      simp only [decodeMulti, List.getD_cons_zero, List.getD_cons_succ, List.length_cons]
    · simp only [Prod.mk.injEq]; omega
    all_goals
      split_ifs <;> simp only [Prod.mk.injEq, RuneError, and_true, reduceCtorEq] <;> omega

theorem DecodeRuneInString_three (a b c : Nat) (t : GoString) (r : Nat) :
    DecodeRuneInString (a :: b :: c :: t) = (r, 3) ↔
      0xE0 ≤ a ∧ a ≤ 0xEF ∧ lo3 a ≤ b ∧ b ≤ hi3 a ∧ isCont c ∧
        r = (a % 16) * 4096 + (b % 64) * 64 + c % 64 := by
  unfold DecodeRuneInString
  simp only [isCont]
  by_cases h0 : a < 0x80
  · simp only [if_pos h0, Prod.mk.injEq]; omega
  · simp only [if_neg h0]
    rcases first_cases a with ⟨hf, h⟩ | ⟨hf, h⟩ | ⟨hf, h⟩ | ⟨hf, h⟩ <;> rw [hf] <;>
      simp only [decodeMulti, List.getD_cons_zero, List.getD_cons_succ, List.length_cons]
    · simp only [Prod.mk.injEq]; omega
    all_goals
      split_ifs <;> simp only [Prod.mk.injEq, RuneError, and_true, reduceCtorEq] <;> omega

theorem DecodeRuneInString_four (a b c d : Nat) (t : GoString) (r : Nat) :
    DecodeRuneInString (a :: b :: c :: d :: t) = (r, 4) ↔
      0xF0 ≤ a ∧ a ≤ 0xF4 ∧ lo4 a ≤ b ∧ b ≤ hi4 a ∧ isCont c ∧ isCont d ∧
        r = (a % 8) * 262144 + (b % 64) * 4096 + (c % 64) * 64 + d % 64 := by
  unfold DecodeRuneInString
  simp only [isCont]
  by_cases h0 : a < 0x80
  · simp only [if_pos h0, Prod.mk.injEq]; omega
  · simp only [if_neg h0]
    rcases first_cases a with ⟨hf, h⟩ | ⟨hf, h⟩ | ⟨hf, h⟩ | ⟨hf, h⟩ <;> rw [hf] <;>
      simp only [decodeMulti, List.getD_cons_zero, List.getD_cons_succ, List.length_cons]
    · simp only [Prod.mk.injEq]; omega
    all_goals
      split_ifs <;> simp only [Prod.mk.injEq, RuneError, and_true, reduceCtorEq] <;> omega

theorem first_some_bounds {b sz lo hi : Nat} (h : first b = some (sz, lo, hi)) :
    0xC2 ≤ b ∧ b ≤ 0xF4 ∧ 2 ≤ sz ∧ sz ≤ 4 ∧ 0x80 ≤ lo ∧ hi ≤ 0xBF := by
  unfold first at h
  split_ifs at h <;> simp at h <;> omega

theorem decodeMulti_size (s : GoString) (sz lo hi : Nat) (h1 : 1 ≤ s.length) (h2 : 2 ≤ sz) :
    1 ≤ (decodeMulti s sz lo hi).2 ∧ (decodeMulti s sz lo hi).2 ≤ s.length ∧
      (decodeMulti s sz lo hi).2 ≤ 4 := by
  unfold decodeMulti
  simp only []
  split_ifs <;> simp only [] <;> omega

theorem DecodeRuneInString_size (a : Nat) (t : GoString) :
    1 ≤ (DecodeRuneInString (a :: t)).2 ∧ (DecodeRuneInString (a :: t)).2 ≤ (a :: t).length ∧
      (DecodeRuneInString (a :: t)).2 ≤ 4 := by
  unfold DecodeRuneInString
  simp only []
  split_ifs
  · simp
  · split
    · simp
    · rename_i sz lo hi hf
      exact decodeMulti_size _ _ _ _ (by simp) (first_some_bounds hf).2.2.1

theorem DecodeRuneInString_head_cont (a : Nat) (t : GoString) (h : isCont a) :
    DecodeRuneInString (a :: t) = (RuneError, 1) := by
  unfold isCont at h
  unfold DecodeRuneInString
  have h0 : ¬ a < 0x80 := by omega
  simp only [if_neg h0]
  rcases first_cases a with ⟨hf, h'⟩ | ⟨hf, h'⟩ | ⟨hf, h'⟩ | ⟨hf, h'⟩
  · rw [hf]
  all_goals omega

theorem lo3_hi3_cont {a b : Nat} (h1 : lo3 a ≤ b) (h2 : b ≤ hi3 a) : isCont b := by
  unfold lo3 at h1
  unfold hi3 at h2
  unfold isCont
  split_ifs at h1 h2 <;> omega

theorem lo4_hi4_cont {a b : Nat} (h1 : lo4 a ≤ b) (h2 : b ≤ hi4 a) : isCont b := by
  unfold lo4 at h1
  unfold hi4 at h2
  unfold isCont
  split_ifs at h1 h2 <;> omega

theorem DecodeRuneInString_valid_take (s : GoString) (r n : Nat) (hs : s ≠ [])
    (h : DecodeRuneInString s = (r, n)) (hv : ¬(r = RuneError ∧ n = 1)) (rest : GoString) :
    DecodeRuneInString (s.take n ++ rest) = (r, n) := by
  obtain ⟨a, t, rfl⟩ := List.exists_cons_of_ne_nil hs
  have hsz := DecodeRuneInString_size a t
  rw [h] at hsz
  simp only [List.length_cons] at hsz
  obtain ⟨h1, h2, h4⟩ := hsz
  have hn : n = 1 ∨ n = 2 ∨ n = 3 ∨ n = 4 := by omega
  rcases hn with rfl | rfl | rfl | rfl
  · rcases DecodeRuneInString_one a t r h with ⟨ha, rfl⟩ | hr
    · simpa using DecodeRuneInString_ascii r rest ha
    · exact absurd ⟨hr, rfl⟩ hv
  · obtain ⟨b, t, rfl⟩ := exists_cons_of_pos t (by omega)
    simpa using (DecodeRuneInString_two a b rest r).2 ((DecodeRuneInString_two a b t r).1 h)
  · obtain ⟨b, t, rfl⟩ := exists_cons_of_pos t (by omega)
    obtain ⟨c, t, rfl⟩ := exists_cons_of_pos t (by simp only [List.length_cons] at h2; omega)
    simpa using (DecodeRuneInString_three a b c rest r).2 ((DecodeRuneInString_three a b c t r).1 h)
  · obtain ⟨b, t, rfl⟩ := exists_cons_of_pos t (by omega)
    obtain ⟨c, t, rfl⟩ := exists_cons_of_pos t (by simp only [List.length_cons] at h2; omega)
    obtain ⟨d, t, rfl⟩ := exists_cons_of_pos t (by simp only [List.length_cons] at h2; omega)
    simpa using (DecodeRuneInString_four a b c d rest r).2 ((DecodeRuneInString_four a b c d t r).1 h)

theorem DecodeRuneInString_cont_of_valid (s : GoString) (r n : Nat) (h : DecodeRuneInString s = (r, n))
    (i b : Nat) (hi1 : 1 ≤ i) (hin : i < n) (hb : s[i]? = some b) : isCont b := by
  cases s with
  | nil => simp at hb
  | cons a t =>
    have hsz := DecodeRuneInString_size a t
    rw [h] at hsz
    simp only [List.length_cons] at hsz
    obtain ⟨h1, h2, h4⟩ := hsz
    have hn : n = 2 ∨ n = 3 ∨ n = 4 := by omega
    rcases hn with rfl | rfl | rfl
    · obtain ⟨b', t, rfl⟩ := exists_cons_of_pos t (by omega)
      have hi : i = 1 := by omega
      subst hi
      simp at hb
      subst hb
      exact ((DecodeRuneInString_two a b' t r).1 h).2.2.1
    · obtain ⟨b', t, rfl⟩ := exists_cons_of_pos t (by omega)
      obtain ⟨c', t, rfl⟩ := exists_cons_of_pos t (by simp only [List.length_cons] at h2; omega)
      obtain ⟨-, -, hb1, hb2, hc, -⟩ := (DecodeRuneInString_three a b' c' t r).1 h
      have hi : i = 1 ∨ i = 2 := by omega
      rcases hi with rfl | rfl
      · simp at hb; subst hb; exact lo3_hi3_cont hb1 hb2
      · simp at hb; subst hb; exact hc
    · obtain ⟨b', t, rfl⟩ := exists_cons_of_pos t (by omega)
      obtain ⟨c', t, rfl⟩ := exists_cons_of_pos t (by simp only [List.length_cons] at h2; omega)
      obtain ⟨d', t, rfl⟩ := exists_cons_of_pos t (by simp only [List.length_cons] at h2; omega)
      obtain ⟨-, -, hb1, hb2, hc, hd, -⟩ := (DecodeRuneInString_four a b' c' d' t r).1 h
      have hi : i = 1 ∨ i = 2 ∨ i = 3 := by omega
      rcases hi with rfl | rfl | rfl
      · simp at hb; subst hb; exact lo4_hi4_cont hb1 hb2
      · simp at hb; subst hb; exact hc
      · simp at hb; subst hb; exact hd

theorem DecodeRuneInString_append (p q : GoString) (hp : p ≠ [])
    (hq : ∀ b, q.head? = some b → ¬ isCont b) : DecodeRuneInString (p ++ q) = DecodeRuneInString p := by
  obtain ⟨a, t, rfl⟩ := List.exists_cons_of_ne_nil hp
  rcases hd : DecodeRuneInString (a :: t) with ⟨r, n⟩
  rcases hd' : DecodeRuneInString (a :: t ++ q) with ⟨r', n'⟩
  by_cases hv : r = RuneError ∧ n = 1
  · obtain ⟨rfl, rfl⟩ := hv
    by_contra hne
    have hsz := DecodeRuneInString_size a (t ++ q)
    rw [← List.cons_append, hd'] at hsz
    have hvalid : ¬(r' = RuneError ∧ n' = 1) := by
      intro ⟨h1, h2⟩
      exact hne (by rw [h1, h2])
    by_cases hlen : n' ≤ (a :: t).length
    · have := DecodeRuneInString_valid_take (a :: t ++ q) r' n' (by simp) hd' hvalid
        ((a :: t).drop n')
      rw [List.take_append_of_le_length hlen, List.take_append_drop, hd] at this
      exact hne this.symm
    · have hlt : (a :: t).length < n' := by omega
      cases q with
      | nil => simp at hsz hlt; omega
      | cons b q' =>
        have hb : (a :: t ++ b :: q')[(a :: t).length]? = some b := by
          rw [List.getElem?_append_right (Nat.le_refl _)]; simp
        exact hq b rfl (DecodeRuneInString_cont_of_valid _ r' n' hd' _ b (by simp) hlt hb)
  · have := DecodeRuneInString_valid_take (a :: t) r n (by simp) hd hv
      ((a :: t).drop n ++ q)
    rw [← List.append_assoc, List.take_append_drop, hd'] at this
    exact this

/-! ### Ranging over a string -/

theorem runesAux_nil (fuel : Nat) : runesAux fuel [] = [] := by
  cases fuel <;> rfl

theorem runesAux_fuel (fuel₁ fuel₂ : Nat) (s : GoString) (h₁ : s.length ≤ fuel₁)
    (h₂ : s.length ≤ fuel₂) : runesAux fuel₁ s = runesAux fuel₂ s := by
  induction fuel₁ generalizing fuel₂ s with
  | zero =>
    have hs : s = [] := List.eq_nil_of_length_eq_zero (by omega)
    subst hs
    rw [runesAux_nil, runesAux_nil]
  | succ k ih =>
    cases s with
    | nil => rw [runesAux_nil, runesAux_nil]
    | cons b t =>
      cases fuel₂ with
      | zero => simp at h₂
      | succ k₂ =>
        have hsz := DecodeRuneInString_size b t
        simp only [List.length_cons] at h₁ h₂ hsz
        simp only [runesAux]
        congr 1
        apply ih <;> simp only [List.length_drop, List.length_cons] <;> omega

theorem runes_nil : runes [] = [] := rfl

theorem runes_cons (b : Nat) (t : GoString) :
    runes (b :: t) =
      ((DecodeRuneInString (b :: t)).1, (b :: t).take (DecodeRuneInString (b :: t)).2) ::
        runes ((b :: t).drop (DecodeRuneInString (b :: t)).2) := by
  have hsz := DecodeRuneInString_size b t
  simp only [List.length_cons] at hsz
  unfold runes
  simp only [List.length_cons, runesAux]
  congr 1
  apply runesAux_fuel <;> simp only [List.length_drop, List.length_cons] <;> omega

theorem runes_unfold (s : GoString) (hs : s ≠ []) :
    runes s = ((DecodeRuneInString s).1, s.take (DecodeRuneInString s).2) :: runes (s.drop (DecodeRuneInString s).2) := by
  obtain ⟨b, t, rfl⟩ := List.exists_cons_of_ne_nil hs
  exact runes_cons b t

theorem string_induction {P : GoString → Prop} (nil : P [])
    (step : ∀ s, s ≠ [] → P (s.drop (DecodeRuneInString s).2) → P s) : ∀ s, P s := by
  suffices h : ∀ n (s : GoString), s.length = n → P s from fun s => h _ s rfl
  intro n
  induction n using Nat.strong_induction_on with
  | _ n ih =>
    intro s hn
    cases s with
    | nil => exact nil
    | cons b t =>
      apply step _ (by simp)
      have hsz := DecodeRuneInString_size b t
      simp only [List.length_cons] at hsz hn
      exact ih _ (by simp only [List.length_drop, List.length_cons]; omega) _ rfl

theorem bytesOf_nil : bytesOf [] = [] := rfl

theorem bytesOf_cons (u : Nat × GoString) (us : List (Nat × GoString)) :
    bytesOf (u :: us) = u.2 ++ bytesOf us := rfl

theorem bytesOf_append (us vs : List (Nat × GoString)) :
    bytesOf (us ++ vs) = bytesOf us ++ bytesOf vs := by
  induction us with
  | nil => rfl
  | cons u us ih => rw [List.cons_append, bytesOf_cons, bytesOf_cons, ih, List.append_assoc]

theorem bytesOf_runes (s : GoString) : bytesOf (runes s) = s := by
  induction s using string_induction with
  | nil => rfl
  | step s hs ih =>
    rw [runes_unfold s hs, bytesOf_cons, ih]
    exact List.take_append_drop _ _

theorem runes_append (p q : GoString) (hq : ∀ b, q.head? = some b → ¬ isCont b) :
    runes (p ++ q) = runes p ++ runes q := by
  induction p using string_induction with
  | nil => simp [runes_nil]
  | step p hp ih =>
    have hd := DecodeRuneInString_append p q hp hq
    have hsz : (DecodeRuneInString p).2 ≤ p.length := by
      obtain ⟨b, t, rfl⟩ := List.exists_cons_of_ne_nil hp
      exact (DecodeRuneInString_size b t).2.1
    rw [runes_unfold (p ++ q) (by simp [hp]), runes_unfold p hp, hd,
      List.take_append_of_le_length hsz, List.drop_append_of_le_length hsz, ih]
    rfl

theorem runes_suffix (s : GoString) (us vs : List (Nat × GoString)) (h : runes s = us ++ vs) :
    runes (bytesOf vs) = vs := by
  induction s using string_induction generalizing us with
  | nil =>
    rw [runes_nil] at h
    have : vs = [] := (List.append_eq_nil.1 h.symm).2
    subst this
    rfl
  | step s hs ih =>
    cases us with
    | nil =>
      rw [List.nil_append] at h
      rw [← h, bytesOf_runes]
    | cons u us =>
      rw [runes_unfold s hs, List.cons_append] at h
      exact ih us (List.cons.inj h).2

theorem runes_head_not_cont (s : GoString) (u : Nat × GoString) (us : List (Nat × GoString))
    (h : runes s = u :: us) (hu : u.1 ≠ RuneError) : ∀ b, s.head? = some b → ¬ isCont b := by
  intro b hb hc
  cases s with
  | nil => simp at hb
  | cons a t =>
    simp at hb
    subst hb
    rw [runes_cons, DecodeRuneInString_head_cont a t hc] at h
    exact hu (by rw [← (List.cons.inj h).1])

theorem runes_initial (s : GoString) (us vs : List (Nat × GoString)) (h : runes s = us ++ vs)
    (hv : ∀ v, vs.head? = some v → v.1 ≠ RuneError) : runes (bytesOf us) = us := by
  have hs : s = bytesOf us ++ bytesOf vs := by rw [← bytesOf_append, ← h, bytesOf_runes]
  have hsuf := runes_suffix s us vs h
  have hq : ∀ b, (bytesOf vs).head? = some b → ¬ isCont b := by
    cases vs with
    | nil => intro b hb; simp [bytesOf_nil] at hb
    | cons v vs' => exact runes_head_not_cont _ v vs' hsuf (hv v rfl)
  have happ := runes_append (bytesOf us) (bytesOf vs) hq
  rw [← hs, h, hsuf] at happ
  exact (List.append_cancel_right happ).symm

/-! ### The replacer -/

theorem Replacer.lookup_some (oldnew : List (GoString × GoString)) (s : GoString)
    (p : GoString × GoString) (h : Replacer.lookup oldnew s = some p) :
    p ∈ oldnew ∧ p.1 ≠ [] ∧ p.1 <+: s := by
  unfold Replacer.lookup at h
  have h1 := List.mem_of_find?_eq_some h
  have h2 := List.find?_some h
  simp only [decide_eq_true_eq] at h2
  exact ⟨h1, h2.1, h2.2⟩

theorem Replacer.lookup_none (oldnew : List (GoString × GoString)) (s : GoString)
    (h : Replacer.lookup oldnew s = none) (p : GoString × GoString) (hp : p ∈ oldnew)
    (hne : p.1 ≠ []) : ¬ p.1 <+: s := by
  unfold Replacer.lookup at h
  rw [List.find?_eq_none] at h
  have := h p hp
  simp only [decide_eq_true_eq] at this
  exact fun hpre => this ⟨hne, hpre⟩

theorem Replacer.replaceAux_nil (oldnew : List (GoString × GoString)) (fuel : Nat) :
    Replacer.replaceAux oldnew fuel [] = [] := by
  cases fuel <;> rfl

theorem Replacer.replaceAux_fuel (oldnew : List (GoString × GoString)) (fuel₁ fuel₂ : Nat)
    (s : GoString) (h₁ : s.length ≤ fuel₁) (h₂ : s.length ≤ fuel₂) :
    Replacer.replaceAux oldnew fuel₁ s = Replacer.replaceAux oldnew fuel₂ s := by
  induction fuel₁ generalizing fuel₂ s with
  | zero =>
    have hs : s = [] := List.eq_nil_of_length_eq_zero (by omega)
    subst hs
    rw [Replacer.replaceAux_nil, Replacer.replaceAux_nil]
  | succ k ih =>
    cases s with
    | nil => rw [Replacer.replaceAux_nil, Replacer.replaceAux_nil]
    | cons b t =>
      cases fuel₂ with
      | zero => simp at h₂
      | succ k₂ =>
        simp only [List.length_cons] at h₁ h₂
        simp only [Replacer.replaceAux]
        cases hl : Replacer.lookup oldnew (b :: t) with
        | none =>
          simp only []
          congr 1
          exact ih _ _ (by omega) (by omega)
        | some p =>
          obtain ⟨old, new⟩ := p
          have hne := (Replacer.lookup_some _ _ _ hl).2.1
          have hpos : 1 ≤ old.length := List.length_pos.2 hne
          simp only []
          congr 1
          apply ih <;> simp only [List.length_drop, List.length_cons] <;> omega

theorem Replacer.Replace_nil (oldnew : List (GoString × GoString)) :
    Replacer.Replace oldnew [] = [] := rfl

theorem Replacer.Replace_none (oldnew : List (GoString × GoString)) (b : Nat) (t : GoString)
    (h : Replacer.lookup oldnew (b :: t) = none) :
    Replacer.Replace oldnew (b :: t) = b :: Replacer.Replace oldnew t := by
  unfold Replacer.Replace
  simp only [List.length_cons, Replacer.replaceAux, h]

theorem Replacer.Replace_some (oldnew : List (GoString × GoString)) (s old new : GoString)
    (h : Replacer.lookup oldnew s = some (old, new)) :
    Replacer.Replace oldnew s = new ++ Replacer.Replace oldnew (s.drop old.length) := by
  have hl := Replacer.lookup_some _ _ _ h
  have hpos : 1 ≤ old.length := List.length_pos.2 hl.2.1
  cases s with
  | nil =>
    have := hl.2.2
    simp at this
    exact absurd this hl.2.1
  | cons b t =>
    unfold Replacer.Replace
    simp only [List.length_cons, Replacer.replaceAux, h]
    congr 1
    apply Replacer.replaceAux_fuel <;> simp only [List.length_drop, List.length_cons] <;> omega

theorem zeroWithReplacer_match (s : GoString) (p : GoString × GoString)
    (hp : p ∈ zeroWithReplacer) (hpre : p.1 <+: s) :
    (DecodeRuneInString s).1 ∈ denylist ∧ (DecodeRuneInString s).2 = p.1.length ∧ p.2 = [] := by
  obtain ⟨t, rfl⟩ := hpre
  simp only [zeroWithReplacer, List.mem_cons, List.mem_singleton, List.not_mem_nil, or_false] at hp
  rcases hp with rfl | rfl | rfl | rfl | rfl | rfl | rfl
  · have h : DecodeRuneInString (0xE2 :: 0x80 :: 0x8B :: t) = (0x200B, 3) :=
      (DecodeRuneInString_three _ _ _ t _).2 (by decide)
    show (DecodeRuneInString (0xE2 :: 0x80 :: 0x8B :: t)).1 ∈ denylist ∧
      (DecodeRuneInString (0xE2 :: 0x80 :: 0x8B :: t)).2 = 3 ∧ _
    rw [h]
    exact ⟨by decide, rfl, rfl⟩
  · have h : DecodeRuneInString (0xEF :: 0xBB :: 0xBF :: t) = (0xFEFF, 3) :=
      (DecodeRuneInString_three _ _ _ t _).2 (by decide)
    show (DecodeRuneInString (0xEF :: 0xBB :: 0xBF :: t)).1 ∈ denylist ∧
      (DecodeRuneInString (0xEF :: 0xBB :: 0xBF :: t)).2 = 3 ∧ _
    rw [h]
    exact ⟨by decide, rfl, rfl⟩
  · have h : DecodeRuneInString (0xE2 :: 0x81 :: 0xA0 :: t) = (0x2060, 3) :=
      (DecodeRuneInString_three _ _ _ t _).2 (by decide)
    show (DecodeRuneInString (0xE2 :: 0x81 :: 0xA0 :: t)).1 ∈ denylist ∧
      (DecodeRuneInString (0xE2 :: 0x81 :: 0xA0 :: t)).2 = 3 ∧ _
    rw [h]
    exact ⟨by decide, rfl, rfl⟩
  · have h : DecodeRuneInString (0xE2 :: 0x80 :: 0x8D :: t) = (0x200D, 3) :=
      (DecodeRuneInString_three _ _ _ t _).2 (by decide)
    show (DecodeRuneInString (0xE2 :: 0x80 :: 0x8D :: t)).1 ∈ denylist ∧
      (DecodeRuneInString (0xE2 :: 0x80 :: 0x8D :: t)).2 = 3 ∧ _
    rw [h]
    exact ⟨by decide, rfl, rfl⟩
  · have h : DecodeRuneInString (0xE2 :: 0x80 :: 0x8E :: t) = (0x200E, 3) :=
      (DecodeRuneInString_three _ _ _ t _).2 (by decide)
    show (DecodeRuneInString (0xE2 :: 0x80 :: 0x8E :: t)).1 ∈ denylist ∧
      (DecodeRuneInString (0xE2 :: 0x80 :: 0x8E :: t)).2 = 3 ∧ _
    rw [h]
    exact ⟨by decide, rfl, rfl⟩
  · have h : DecodeRuneInString (0xE2 :: 0x80 :: 0x8F :: t) = (0x200F, 3) :=
      (DecodeRuneInString_three _ _ _ t _).2 (by decide)
    show (DecodeRuneInString (0xE2 :: 0x80 :: 0x8F :: t)).1 ∈ denylist ∧
      (DecodeRuneInString (0xE2 :: 0x80 :: 0x8F :: t)).2 = 3 ∧ _
    rw [h]
    exact ⟨by decide, rfl, rfl⟩
  · have h : DecodeRuneInString (0xC2 :: 0xA0 :: t) = (0xA0, 2) :=
      (DecodeRuneInString_two _ _ t _).2 (by decide)
    show (DecodeRuneInString (0xC2 :: 0xA0 :: t)).1 ∈ denylist ∧
      (DecodeRuneInString (0xC2 :: 0xA0 :: t)).2 = 2 ∧ _
    rw [h]
    exact ⟨by decide, rfl, rfl⟩

theorem denylisted_match (s : GoString) (h : (DecodeRuneInString s).1 ∈ denylist) :
    ∃ p ∈ zeroWithReplacer, p.1 <+: s := by
  cases s with
  | nil => exact absurd h (by decide)
  | cons a t =>
    rcases hd : DecodeRuneInString (a :: t) with ⟨r, n⟩
    rw [hd] at h
    simp only [denylist, zeroWidthSpace, zeroWidthNoBreakSpace, wordJoiner, zeroWidthJoiner,
      leftToRightMark, rightToLeftMark, noBreakingSpace, List.mem_cons, List.mem_singleton,
      List.not_mem_nil, or_false] at h
    have hsz := DecodeRuneInString_size a t
    rw [hd] at hsz
    simp only [List.length_cons] at hsz
    obtain ⟨h1, h2, h4⟩ := hsz
    have hn : n = 1 ∨ n = 2 ∨ n = 3 ∨ n = 4 := by omega
    rcases hn with rfl | rfl | rfl | rfl
    · rcases DecodeRuneInString_one a t r hd with ⟨ha, rfl⟩ | hr
      · omega
      · simp only [RuneError] at hr; omega
    · obtain ⟨b, t, rfl⟩ := exists_cons_of_pos t (by omega)
      have hc := (DecodeRuneInString_two a b t r).1 hd
      simp only [isCont] at hc
      have : a = 0xC2 ∧ b = 0xA0 := by omega
      obtain ⟨rfl, rfl⟩ := this
      exact ⟨(EncodeRune noBreakingSpace, empty), by simp [zeroWithReplacer],
        ⟨t, rfl⟩⟩
    · obtain ⟨b, t, rfl⟩ := exists_cons_of_pos t (by omega)
      obtain ⟨c, t, rfl⟩ := exists_cons_of_pos t (by simp only [List.length_cons] at h2; omega)
      have hc := (DecodeRuneInString_three a b c t r).1 hd
      simp only [isCont, lo3, hi3] at hc
      obtain ⟨ha1, ha2, hb1, hb2, hc1, hr⟩ := hc
      have hb1' : 0x80 ≤ b := by split_ifs at hb1 <;> omega
      have hb2' : b ≤ 0xBF := by split_ifs at hb2 <;> omega
      have hA0 : r ≠ 0xA0 := by split_ifs at hb1 hb2 <;> omega
      rcases h with rfl | rfl | rfl | rfl | rfl | rfl | rfl
      · have : a = 0xE2 ∧ b = 0x80 ∧ c = 0x8B := by omega
        obtain ⟨rfl, rfl, rfl⟩ := this
        exact ⟨(EncodeRune zeroWidthSpace, empty), by simp [zeroWithReplacer], ⟨t, rfl⟩⟩
      · have : a = 0xEF ∧ b = 0xBB ∧ c = 0xBF := by omega
        obtain ⟨rfl, rfl, rfl⟩ := this
        exact ⟨(EncodeRune zeroWidthNoBreakSpace, empty), by simp [zeroWithReplacer], ⟨t, rfl⟩⟩
      · have : a = 0xE2 ∧ b = 0x81 ∧ c = 0xA0 := by omega
        obtain ⟨rfl, rfl, rfl⟩ := this
        exact ⟨(EncodeRune wordJoiner, empty), by simp [zeroWithReplacer], ⟨t, rfl⟩⟩
      · have : a = 0xE2 ∧ b = 0x80 ∧ c = 0x8D := by omega
        obtain ⟨rfl, rfl, rfl⟩ := this
        exact ⟨(EncodeRune zeroWidthJoiner, empty), by simp [zeroWithReplacer], ⟨t, rfl⟩⟩
      · have : a = 0xE2 ∧ b = 0x80 ∧ c = 0x8E := by omega
        obtain ⟨rfl, rfl, rfl⟩ := this
        exact ⟨(EncodeRune leftToRightMark, empty), by simp [zeroWithReplacer], ⟨t, rfl⟩⟩
      · have : a = 0xE2 ∧ b = 0x80 ∧ c = 0x8F := by omega
        obtain ⟨rfl, rfl, rfl⟩ := this
        exact ⟨(EncodeRune rightToLeftMark, empty), by simp [zeroWithReplacer], ⟨t, rfl⟩⟩
      · exact absurd rfl hA0
    · obtain ⟨b, t, rfl⟩ := exists_cons_of_pos t (by omega)
      obtain ⟨c, t, rfl⟩ := exists_cons_of_pos t (by simp only [List.length_cons] at h2; omega)
      obtain ⟨d, t, rfl⟩ := exists_cons_of_pos t (by simp only [List.length_cons] at h2; omega)
      have hc := (DecodeRuneInString_four a b c d t r).1 hd
      simp only [isCont, lo4, hi4] at hc
      obtain ⟨ha1, ha2, hb1, hb2, hc1, hd1, hr⟩ := hc
      have : 0x10000 ≤ r := by split_ifs at hb1 hb2 <;> omega
      omega

theorem lookup_of_not_denylisted (s : GoString) (h : (DecodeRuneInString s).1 ∉ denylist) :
    Replacer.lookup zeroWithReplacer s = none := by
  cases hl : Replacer.lookup zeroWithReplacer s with
  | none => rfl
  | some p =>
    obtain ⟨hp, -, hpre⟩ := Replacer.lookup_some _ _ _ hl
    exact absurd (zeroWithReplacer_match s p hp hpre).1 h

theorem lookup_of_denylisted (s : GoString) (h : (DecodeRuneInString s).1 ∈ denylist) :
    ∃ old, Replacer.lookup zeroWithReplacer s = some (old, []) ∧
      old.length = (DecodeRuneInString s).2 := by
  obtain ⟨p, hp, hpre⟩ := denylisted_match s h
  have hs : s ≠ [] := by
    intro hs
    subst hs
    exact absurd h (by decide)
  have hlen := (zeroWithReplacer_match s p hp hpre).2.1
  have hne : p.1 ≠ [] := by
    obtain ⟨b, t, rfl⟩ := List.exists_cons_of_ne_nil hs
    have := (DecodeRuneInString_size b t).1
    intro hp0
    rw [hp0] at hlen
    simp at hlen
    omega
  cases hl : Replacer.lookup zeroWithReplacer s with
  | none => exact absurd hpre (Replacer.lookup_none _ _ hl p hp hne)
  | some p' =>
    obtain ⟨hp', -, hpre'⟩ := Replacer.lookup_some _ _ _ hl
    obtain ⟨-, hlen', hnew⟩ := zeroWithReplacer_match s p' hp' hpre'
    obtain ⟨old, new⟩ := p'
    simp only at hnew hlen'
    subst hnew
    exact ⟨old, rfl, hlen'.symm⟩

theorem Replace_cont_bytes (pre rest : GoString) (h : ∀ b ∈ pre, isCont b) :
    Replacer.Replace zeroWithReplacer (pre ++ rest) =
      pre ++ Replacer.Replace zeroWithReplacer rest := by
  induction pre with
  | nil => rfl
  | cons b pre ih =>
    have hb : isCont b := h b (List.mem_cons_self _ _)
    have hl : Replacer.lookup zeroWithReplacer (b :: (pre ++ rest)) = none := by
      apply lookup_of_not_denylisted
      rw [DecodeRuneInString_head_cont b _ hb]
      decide
    rw [List.cons_append, Replacer.Replace_none _ _ _ hl,
      ih (fun x hx => h x (List.mem_cons_of_mem _ hx)), List.cons_append]

theorem Replace_step (s : GoString) (hs : s ≠ []) :
    Replacer.Replace zeroWithReplacer s =
      (if (DecodeRuneInString s).1 ∈ denylist then [] else s.take (DecodeRuneInString s).2) ++
        Replacer.Replace zeroWithReplacer (s.drop (DecodeRuneInString s).2) := by
  by_cases hd : (DecodeRuneInString s).1 ∈ denylist
  · obtain ⟨old, hl, hlen⟩ := lookup_of_denylisted s hd
    rw [if_pos hd, Replacer.Replace_some _ _ _ _ hl, hlen]
  · rw [if_neg hd]
    obtain ⟨a, t, rfl⟩ := List.exists_cons_of_ne_nil hs
    have hsz := DecodeRuneInString_size a t
    rw [Replacer.Replace_none _ _ _ (lookup_of_not_denylisted _ hd)]
    obtain ⟨n, hn⟩ : ∃ n, (DecodeRuneInString (a :: t)).2 = n + 1 := ⟨(DecodeRuneInString (a :: t)).2 - 1, by omega⟩
    rw [hn, List.take_succ_cons, List.drop_succ_cons, List.cons_append]
    congr 1
    have hdec : DecodeRuneInString (a :: t) = ((DecodeRuneInString (a :: t)).1, n + 1) := by rw [← hn]
    have hcont : ∀ b ∈ t.take n, isCont b := by
      intro b hb
      obtain ⟨i, hi, rfl⟩ := List.mem_iff_getElem.1 hb
      have hi' := hi
      rw [List.length_take] at hi'
      apply DecodeRuneInString_cont_of_valid (a :: t) _ (n + 1) hdec (i + 1) _ (by omega) (by omega)
      rw [List.getElem?_cons_succ, List.getElem_take, List.getElem?_eq_getElem]
    rw [← Replace_cont_bytes _ _ hcont, List.take_append_drop]

theorem Replace_eq_filter (s : GoString) :
    Replacer.Replace zeroWithReplacer s =
      bytesOf ((runes s).filter (fun u => decide (u.1 ∉ denylist))) := by
  induction s using string_induction with
  | nil => rfl
  | step s hs ih =>
    rw [Replace_step s hs, runes_unfold s hs, ih, List.filter_cons]
    by_cases hd : (DecodeRuneInString s).1 ∈ denylist
    · simp only [hd, not_true_eq_false, decide_False, if_true, List.nil_append]
      rfl
    · simp only [hd, not_false_eq_true, decide_True, if_true, if_false, bytesOf_cons]

/-! ### Fields and runs -/

theorem FieldsFunc_eq (s : GoString) (f : Nat → Bool) :
    FieldsFunc s f =
      FieldsFunc.finish ((runes s).foldl (FieldsFunc.step f) { spans := [], start := none }) :=
  rfl

theorem FieldsFunc_fold (f : Nat → Bool) (us cur : List (Nat × GoString))
    (spans : List GoString) :
    FieldsFunc.finish (us.foldl (FieldsFunc.step f) { spans := spans, start := startOf cur }) =
      spans ++ (runsGo f cur us).map bytesOf := by
  induction us generalizing cur spans with
  | nil =>
    simp only [List.foldl_nil, FieldsFunc.finish, startOf, runsGo]
    by_cases hc : cur = []
    · simp [hc]
    · simp [hc]
  | cons u us ih =>
    simp only [List.foldl_cons, runsGo]
    by_cases hf : f u.1 = true
    · by_cases hc : cur = []
      · have h1 : FieldsFunc.step f { spans := spans, start := startOf cur } u =
            { spans := spans, start := startOf [] } := by
          simp [FieldsFunc.step, hf, startOf, hc]
        rw [h1, ih, if_pos hf, if_pos hc, List.nil_append]
      · have h1 : FieldsFunc.step f { spans := spans, start := startOf cur } u =
            { spans := spans ++ [bytesOf cur], start := startOf [] } := by
          simp [FieldsFunc.step, hf, startOf, hc]
        rw [h1, ih, if_pos hf, if_neg hc]
        simp
    · have h1 : FieldsFunc.step f { spans := spans, start := startOf cur } u =
          { spans := spans, start := startOf (cur ++ [u]) } := by
        by_cases hc : cur = []
        · simp [FieldsFunc.step, hf, startOf, hc, bytesOf]
        · simp [FieldsFunc.step, hf, startOf, hc, bytesOf]
      rw [h1, ih, if_neg hf]

theorem Fields_eq_runs (s : GoString) :
    Fields s = (runsGo IsSpace [] (runes s)).map bytesOf := by
  unfold Fields
  rw [FieldsFunc_eq]
  have := FieldsFunc_fold IsSpace (runes s) [] []
  simpa [startOf] using this

theorem runsGo_flatten (f : Nat → Bool) (cur us : List (Nat × GoString)) :
    (runsGo f cur us).flatten = cur ++ us.filter (fun u => !f u.1) := by
  induction us generalizing cur with
  | nil =>
    by_cases hc : cur = [] <;> simp [runsGo, hc]
  | cons u us ih =>
    by_cases hf : f u.1 = true
    · by_cases hc : cur = [] <;> simp [runsGo, hf, hc, ih]
    · simp [runsGo, hf, ih]

theorem runsGo_spec (f : Nat → Bool) (cur us : List (Nat × GoString))
    (hcur : ∀ u ∈ cur, f u.1 = false) (r : List (Nat × GoString)) (hr : r ∈ runsGo f cur us) :
    r ≠ [] ∧ (∀ u ∈ r, f u.1 = false) ∧
      ∃ pre post, cur ++ us = pre ++ r ++ post ∧ ∀ v, post.head? = some v → f v.1 = true := by
  induction us generalizing cur with
  | nil =>
    by_cases hc : cur = []
    · simp [runsGo, hc] at hr
    · simp only [runsGo, if_neg hc, List.mem_singleton] at hr
      subst hr
      exact ⟨hc, hcur, [], [], by simp, by simp⟩
  | cons u us ih =>
    by_cases hf : f u.1 = true
    · simp only [runsGo, if_pos hf, List.mem_append] at hr
      rcases hr with hr | hr
      · by_cases hc : cur = []
        · simp [hc] at hr
        · simp only [if_neg hc, List.mem_singleton] at hr
          subst hr
          exact ⟨hc, hcur, [], u :: us, by simp, by simpa using hf⟩
      · obtain ⟨h1, h2, pre, post, h3, h4⟩ := ih [] (by simp) hr
        refine ⟨h1, h2, cur ++ u :: pre, post, ?_, h4⟩
        rw [List.nil_append] at h3
        rw [h3]
        simp
    · simp only [runsGo, if_neg hf] at hr
      have hcur' : ∀ v ∈ cur ++ [u], f v.1 = false := by
        intro v hv
        rcases List.mem_append.1 hv with hv | hv
        · exact hcur v hv
        · rw [List.mem_singleton.1 hv]; simpa using hf
      obtain ⟨h1, h2, pre, post, h3, h4⟩ := ih (cur ++ [u]) hcur' hr
      exact ⟨h1, h2, pre, post, by rw [← h3]; simp, h4⟩

theorem runsGo_append_nonsep (f : Nat → Bool) (cur x us : List (Nat × GoString))
    (hx : ∀ u ∈ x, f u.1 = false) : runsGo f cur (x ++ us) = runsGo f (cur ++ x) us := by
  induction x generalizing cur with
  | nil => simp
  | cons u x ih =>
    have hu : ¬ f u.1 = true := by simp [hx u (List.mem_cons_self _ _)]
    rw [List.cons_append, runsGo, if_neg hu, ih _ (fun v hv => hx v (List.mem_cons_of_mem _ hv))]
    simp

theorem runsGo_eq_splitOnP (f : Nat → Bool) (cur us : List (Nat × GoString)) :
    runsGo f cur us =
      (((us.splitOnP (fun u => f u.1)).modifyHead (cur ++ ·)).filter (fun r => decide (r ≠ []))) := by
  induction us generalizing cur with
  | nil =>
    by_cases hc : cur = [] <;> simp [runsGo, hc]
  | cons u us ih =>
    obtain ⟨h, tl, hsplit⟩ := List.exists_cons_of_ne_nil (List.splitOnP_ne_nil (fun u => f u.1) us)
    by_cases hf : f u.1 = true
    · rw [runsGo, if_pos hf, ih, List.splitOnP_cons, if_pos hf, hsplit]
      by_cases hc : cur = [] <;> simp [hc]
    · rw [runsGo, if_neg hf, ih, List.splitOnP_cons, if_neg hf, hsplit]
      simp

/-! ### Joining fields -/

theorem Join_empty_sep (fs : List GoString) : Join fs [] = fs.flatten := by
  induction fs with
  | nil => rfl
  | cons f fs ih =>
    cases fs with
    | nil => simp [Join]
    | cons g gs => simp [Join, ih]

theorem Join_eq_intercalate (fs : List GoString) (sep : GoString) :
    Join fs sep = List.intercalate sep fs := by
  induction fs with
  | nil => rfl
  | cons f fs ih =>
    cases fs with
    | nil => simp [Join, List.intercalate]
    | cons g gs =>
      rw [Join, ih]
      simp [List.intercalate]

theorem Join_bytesOf (runs : List (List (Nat × GoString))) :
    Join (runs.map bytesOf) [0x20] = bytesOf (joinUnits runs) := by
  induction runs with
  | nil => rfl
  | cons r rs ih =>
    cases rs with
    | nil => simp [Join, joinUnits]
    | cons r2 rs =>
      simp only [List.map_cons, Join, joinUnits] at ih ⊢
      rw [ih, bytesOf_append, bytesOf_cons]
      simp [spaceUnit]

theorem runes_space_cons (t : GoString) : runes (0x20 :: t) = spaceUnit :: runes t := by
  rw [runes_cons, DecodeRuneInString_ascii 0x20 t (by decide)]
  rfl

theorem runes_joinUnits (runs : List (List (Nat × GoString)))
    (h : ∀ r ∈ runs, runes (bytesOf r) = r) :
    runes (bytesOf (joinUnits runs)) = joinUnits runs := by
  induction runs with
  | nil => rfl
  | cons r rs ih =>
    cases rs with
    | nil => simpa [joinUnits] using h
    | cons r2 rs =>
      have ih' := ih (fun x hx => h x (List.mem_cons_of_mem _ hx))
      simp only [joinUnits] at ih' ⊢
      rw [bytesOf_append, bytesOf_cons]
      show runes (bytesOf r ++ (0x20 :: bytesOf (joinUnits (r2 :: rs)))) = _
      rw [runes_append _ _ (by intro b hb; simp at hb; subst hb; unfold isCont; omega),
        runes_space_cons, h r (List.mem_cons_self _ _), ih']

theorem IsSpace_RuneError : IsSpace RuneError = false := by decide

theorem runes_field (t : GoString) (r : List (Nat × GoString))
    (hr : r ∈ runsGo IsSpace [] (runes t)) : runes (bytesOf r) = r := by
  obtain ⟨-, -, pre, post, hsplit, hpost⟩ := runsGo_spec IsSpace [] (runes t) (by simp) r hr
  rw [List.nil_append, List.append_assoc] at hsplit
  have hsuf := runes_suffix t pre (r ++ post) hsplit
  apply runes_initial _ r post hsuf
  intro v hv hv'
  have := hpost v hv
  rw [hv', IsSpace_RuneError] at this
  exact absurd this (by decide)

theorem runes_RemoveDuplicateSpaces (s : GoString) :
    runes (RemoveDuplicateSpaces s) =
      joinUnits (runsGo IsSpace [] (runes (Replacer.Replace zeroWithReplacer s))) := by
  unfold RemoveDuplicateSpaces
  rw [Fields_eq_runs, Join_bytesOf]
  exact runes_joinUnits _ (fun r hr => runes_field _ r hr)

theorem RemoveAllSpaces_eq_filter (s : GoString) :
    RemoveAllSpaces s =
      bytesOf ((runes (Replacer.Replace zeroWithReplacer s)).filter (fun u => !IsSpace u.1)) := by
  unfold RemoveAllSpaces
  have hflat := runsGo_flatten IsSpace [] (runes (Replacer.Replace zeroWithReplacer s))
  rw [List.nil_append] at hflat
  rw [Fields_eq_runs, Join_empty_sep, ← hflat]
  simp only [bytesOf]
  generalize runsGo IsSpace [] (runes (Replacer.Replace zeroWithReplacer s)) = runs
  induction runs with
  | nil => rfl
  | cons r rs ih => simp [ih, bytesOf]

/-! ### Valid UTF-8 -/

theorem runes_mem_decode (s : GoString) (u : Nat × GoString) (hu : u ∈ runes s) :
    ∃ s', s' ≠ [] ∧ u = ((DecodeRuneInString s').1, s'.take (DecodeRuneInString s').2) := by
  induction s using string_induction with
  | nil => simp [runes_nil] at hu
  | step s hs ih =>
    rw [runes_unfold s hs, List.mem_cons] at hu
    rcases hu with hu | hu
    · exact ⟨s, hs, hu⟩
    · exact ih hu

theorem selfDelimiting_of_mem (s : GoString) (u : Nat × GoString) (hu : u ∈ runes s)
    (hv : ¬(u.1 = RuneError ∧ u.2.length = 1)) : selfDelimiting u := by
  obtain ⟨s', hs', rfl⟩ := runes_mem_decode s u hu
  obtain ⟨a, t, rfl⟩ := List.exists_cons_of_ne_nil hs'
  have hsz := DecodeRuneInString_size a t
  have hlen : ((a :: t).take (DecodeRuneInString (a :: t)).2).length = (DecodeRuneInString (a :: t)).2 := by
    rw [List.length_take]; omega
  simp only [hlen] at hv
  refine ⟨?_, ?_⟩
  · intro h0
    have := congrArg List.length h0
    simp only [hlen, List.length_nil] at this
    omega
  · intro rest
    simp only [hlen]
    exact DecodeRuneInString_valid_take (a :: t) _ _ (by simp) rfl hv rest

theorem runes_bytesOf_selfDelimiting (vs : List (Nat × GoString))
    (h : ∀ u ∈ vs, selfDelimiting u) : runes (bytesOf vs) = vs := by
  induction vs with
  | nil => rfl
  | cons u vs ih =>
    obtain ⟨hne, hdec⟩ := h u (List.mem_cons_self _ _)
    rw [bytesOf_cons, runes_unfold _ (by simp [hne]), hdec (bytesOf vs)]
    simp only [List.take_left', List.drop_left']
    rw [ih (fun v hv => h v (List.mem_cons_of_mem _ hv))]

theorem selfDelimiting_of_valid (s : GoString) (h : ValidString s = true) :
    ∀ u ∈ runes s, selfDelimiting u := by
  intro u hu
  apply selfDelimiting_of_mem s u hu
  unfold ValidString at h
  rw [List.all_eq_true] at h
  have := h u hu
  intro ⟨h1, h2⟩
  simp [h1, h2] at this

theorem runes_Replace_of_valid (s : GoString) (h : ValidString s = true) :
    runes (Replacer.Replace zeroWithReplacer s) =
      (runes s).filter (fun u => decide (u.1 ∉ denylist)) := by
  rw [Replace_eq_filter]
  apply runes_bytesOf_selfDelimiting
  intro u hu
  exact selfDelimiting_of_valid s h u (List.mem_filter.1 hu).1

theorem DecodeRuneInString_EncodeRune (c : Nat) (h1 : c ≤ 0x10FFFF) (h2 : ¬(0xD800 ≤ c ∧ c ≤ 0xDFFF))
    (rest : GoString) : DecodeRuneInString (EncodeRune c ++ rest) = (c, (EncodeRune c).length) := by
  unfold EncodeRune
  split_ifs with ha hb hc hd
  · exact DecodeRuneInString_ascii c rest (by omega)
  · exact (DecodeRuneInString_two _ _ rest c).2 (by unfold isCont; omega)
  · omega
  · refine (DecodeRuneInString_three _ _ _ rest c).2 ?_
    unfold lo3 hi3 isCont
    split_ifs <;> omega
  · refine (DecodeRuneInString_four _ _ _ _ rest c).2 ?_
    unfold lo4 hi4 isCont
    split_ifs <;> omega

theorem EncodeRune_ne_nil (c : Nat) : EncodeRune c ≠ [] := by
  unfold EncodeRune
  split_ifs <;> simp

theorem selfDelimiting_EncodeRune (c : Nat) (h1 : c ≤ 0x10FFFF)
    (h2 : ¬(0xD800 ≤ c ∧ c ≤ 0xDFFF)) : selfDelimiting (c, EncodeRune c) :=
  ⟨EncodeRune_ne_nil c, fun rest => DecodeRuneInString_EncodeRune c h1 h2 rest⟩

theorem selfDelimiting_spaceUnit : selfDelimiting spaceUnit :=
  ⟨by simp [spaceUnit], fun rest => DecodeRuneInString_ascii 0x20 rest (by decide)⟩

theorem joinUnits_mem (runs : List (List (Nat × GoString))) (u : Nat × GoString)
    (hu : u ∈ joinUnits runs) : u = spaceUnit ∨ ∃ r ∈ runs, u ∈ r := by
  induction runs with
  | nil => simp [joinUnits] at hu
  | cons r rs ih =>
    cases rs with
    | nil => exact Or.inr ⟨r, by simp, by simpa [joinUnits] using hu⟩
    | cons r2 rs =>
      simp only [joinUnits, List.mem_append, List.mem_cons] at hu
      rcases hu with hu | hu | hu
      · exact Or.inr ⟨r, by simp, hu⟩
      · exact Or.inl hu
      · rcases ih hu with h | ⟨r', hr', hu'⟩
        · exact Or.inl h
        · exact Or.inr ⟨r', List.mem_cons_of_mem _ hr', hu'⟩

theorem runsGo_joinUnits (runs : List (List (Nat × GoString)))
    (h : ∀ r ∈ runs, r ≠ [] ∧ ∀ u ∈ r, IsSpace u.1 = false) :
    runsGo IsSpace [] (joinUnits runs) = runs := by
  induction runs with
  | nil => rfl
  | cons r rs ih =>
    obtain ⟨hne, hsp⟩ := h r (List.mem_cons_self _ _)
    cases rs with
    | nil =>
      have := runsGo_append_nonsep IsSpace [] r [] hsp
      simp only [List.append_nil, List.nil_append] at this
      simp only [joinUnits, this, runsGo, if_neg hne]
    | cons r2 rs =>
      have ih' := ih (fun x hx => h x (List.mem_cons_of_mem _ hx))
      have hs : IsSpace spaceUnit.1 = true := by decide
      simp only [joinUnits] at ih' ⊢
      rw [runsGo_append_nonsep IsSpace [] r _ hsp, List.nil_append, runsGo, if_pos hs,
        if_neg hne, ih']
      rfl

theorem runsGo_good (us : List (Nat × GoString)) :
    ∀ r ∈ runsGo IsSpace [] us, r ≠ [] ∧ ∀ u ∈ r, IsSpace u.1 = false := by
  intro r hr
  obtain ⟨h1, h2, -⟩ := runsGo_spec IsSpace [] us (by simp) r hr
  exact ⟨h1, h2⟩

theorem runsGo_mem (us r : List (Nat × GoString)) (hr : r ∈ runsGo IsSpace [] us)
    (u : Nat × GoString) (hu : u ∈ r) : u ∈ us := by
  obtain ⟨-, -, pre, post, hsplit, -⟩ := runsGo_spec IsSpace [] us (by simp) r hr
  rw [List.nil_append] at hsplit
  rw [hsplit]
  simp [hu]

theorem chain_of_nonspace (l : List Nat) (h : ∀ x ∈ l, IsSpace x = false) :
    List.Chain' (fun a b => ¬(IsSpace a = true ∧ IsSpace b = true)) l := by
  induction l with
  | nil => exact List.chain'_nil
  | cons x l ih =>
    rw [List.chain'_cons']
    refine ⟨?_, ih (fun y hy => h y (List.mem_cons_of_mem _ hy))⟩
    intro y _ hxy
    rw [h x (List.mem_cons_self _ _)] at hxy
    exact absurd hxy.1 (by decide)

theorem joinUnits_ne_nil (r : List (Nat × GoString)) (rs : List (List (Nat × GoString)))
    (hr : r ≠ []) : joinUnits (r :: rs) ≠ [] := by
  cases rs with
  | nil => simpa [joinUnits] using hr
  | cons r2 rs => simp [joinUnits, hr]

theorem joinUnits_collapsed (runs : List (List (Nat × GoString)))
    (h : ∀ r ∈ runs, r ≠ [] ∧ ∀ u ∈ r, IsSpace u.1 = false) :
    List.Chain' (fun a b => ¬(IsSpace a = true ∧ IsSpace b = true))
        ((joinUnits runs).map Prod.fst) ∧
      (∀ x, ((joinUnits runs).map Prod.fst).head? = some x → IsSpace x = false) ∧
      (∀ x, ((joinUnits runs).map Prod.fst).getLast? = some x → IsSpace x = false) ∧
      (∀ x ∈ (joinUnits runs).map Prod.fst, IsSpace x = true → x = 0x20) := by
  induction runs with
  | nil => simp [joinUnits]
  | cons r rs ih =>
    obtain ⟨hne, hsp⟩ := h r (List.mem_cons_self _ _)
    have hsp' : ∀ x ∈ r.map Prod.fst, IsSpace x = false := by
      intro x hx
      obtain ⟨u, hu, rfl⟩ := List.mem_map.1 hx
      exact hsp u hu
    cases rs with
    | nil =>
      simp only [joinUnits]
      refine ⟨chain_of_nonspace _ hsp', ?_, ?_, ?_⟩
      · intro x hx
        exact hsp' x (List.mem_of_mem_head? hx)
      · intro x hx
        exact hsp' x (List.mem_of_getLast?_eq_some hx)
      · intro x hx hs
        rw [hsp' x hx] at hs
        exact absurd hs (by decide)
    | cons r2 rs =>
      obtain ⟨ih1, ih2, ih3, ih4⟩ := ih (fun x hx => h x (List.mem_cons_of_mem _ hx))
      have hne2 : joinUnits (r2 :: rs) ≠ [] :=
        joinUnits_ne_nil r2 rs (h r2 (by simp)).1
      simp only [joinUnits, List.map_append, List.map_cons] at ih1 ih2 ih3 ih4 ⊢
      have hmne : r.map Prod.fst ≠ [] := by simpa using hne
      have hmne2 : (joinUnits (r2 :: rs)).map Prod.fst ≠ [] := by simpa using hne2
      refine ⟨?_, ?_, ?_, ?_⟩
      · apply List.Chain'.append (chain_of_nonspace _ hsp')
        · rw [List.chain'_cons']
          refine ⟨?_, ih1⟩
          intro y hy hxy
          rw [ih2 y hy] at hxy
          exact absurd hxy.2 (by decide)
        · intro x hx y _ hxy
          rw [hsp' x (List.mem_of_getLast?_eq_some hx)] at hxy
          exact absurd hxy.1 (by decide)
      · intro x hx
        rw [List.head?_append_of_ne_nil _ hmne] at hx
        exact hsp' x (List.mem_of_mem_head? hx)
      · intro x hx
        obtain ⟨y, l', hl⟩ := List.exists_cons_of_ne_nil hmne2
        rw [List.getLast?_append_of_ne_nil _ (by simp), hl, List.getLast?_cons_cons, ← hl] at hx
        exact ih3 x hx
      · intro x hx hs
        rcases List.mem_append.1 hx with hx | hx
        · rw [hsp' x hx] at hs
          exact absurd hs (by decide)
        · rcases List.mem_cons.1 hx with hx | hx
          · rw [hx]; rfl
          · exact ih4 x hx hs

/-! ### Refinement of the specification -/

theorem runes_bytes_ne_nil (s : GoString) (u : Nat × GoString) (hu : u ∈ runes s) :
    u.2 ≠ [] := by
  obtain ⟨s', hs', rfl⟩ := runes_mem_decode s u hu
  obtain ⟨a, t, rfl⟩ := List.exists_cons_of_ne_nil hs'
  have hsz := DecodeRuneInString_size a t
  intro h0
  have := congrArg List.length h0
  simp only [List.length_take, List.length_nil] at this
  omega

theorem splitOnP_mem {α : Type} (p : α → Bool) (us r : List α) (hr : r ∈ us.splitOnP p)
    (x : α) (hx : x ∈ r) : x ∈ us := by
  induction us generalizing r with
  | nil => simp at hr; subst hr; simp at hx
  | cons u us ih =>
    obtain ⟨h, tl, hsplit⟩ := List.exists_cons_of_ne_nil (List.splitOnP_ne_nil p us)
    rw [List.splitOnP_cons] at hr
    by_cases hp : p u = true
    · rw [if_pos hp, List.mem_cons] at hr
      rcases hr with rfl | hr
      · simp at hx
      · exact List.mem_cons_of_mem _ (ih r hr hx)
    · rw [if_neg hp, hsplit, List.modifyHead_cons, List.mem_cons] at hr
      rcases hr with rfl | hr
      · rcases List.mem_cons.1 hx with rfl | hx
        · exact List.mem_cons_self _ _
        · exact List.mem_cons_of_mem _ (ih h (by rw [hsplit]; exact List.mem_cons_self _ _) hx)
      · exact List.mem_cons_of_mem _ (ih r (by rw [hsplit]; exact List.mem_cons_of_mem _ hr) hx)

theorem bytesOf_eq_nil (r : List (Nat × GoString)) (h : ∀ u ∈ r, u.2 ≠ []) :
    bytesOf r = [] ↔ r = [] := by
  cases r with
  | nil => simp [bytesOf_nil]
  | cons u r =>
    rw [bytesOf_cons]
    simp [h u (List.mem_cons_self _ _)]

theorem Fields_eq_specSplit (t : GoString) : Fields t = specSplit t := by
  rw [Fields_eq_runs, runsGo_eq_splitOnP, specSplit, List.filter_map]
  have hmod : ∀ l : List (List (Nat × GoString)), l.modifyHead (fun x => [] ++ x) = l := by
    intro l
    cases l <;> simp
  rw [hmod]
  congr 1
  apply List.filter_congr
  intro r hr
  have hb := bytesOf_eq_nil r (fun u hu =>
    runes_bytes_ne_nil t u (splitOnP_mem _ _ r hr u hu))
  simp only [Function.comp, decide_eq_decide]
  exact not_congr hb.symm

theorem RemoveDuplicateSpaces_eq_spec (s : GoString) :
    RemoveDuplicateSpaces s = specRemoveDuplicateSpaces s := by
  unfold RemoveDuplicateSpaces specRemoveDuplicateSpaces specJoin specDelete
  rw [Join_eq_intercalate, Fields_eq_specSplit, Replace_eq_filter]

theorem IsSpace_le (c : Nat) (h : IsSpace c = true) : c ≤ 0x3000 := by
  unfold IsSpace at h
  split_ifs at h with h1
  · omega
  · simp only [decide_eq_true_eq] at h
    omega

theorem denylist_scalar (c : Nat) (h : c ∈ denylist) :
    c ≤ 0x10FFFF ∧ ¬(0xD800 ≤ c ∧ c ≤ 0xDFFF) := by
  simp only [denylist, zeroWidthSpace, zeroWidthNoBreakSpace, wordJoiner, zeroWidthJoiner,
    leftToRightMark, rightToLeftMark, noBreakingSpace, List.mem_cons, List.mem_singleton,
    List.not_mem_nil, or_false] at h
  omega

theorem runes_flatMap_EncodeRune (cs : List Nat)
    (h : ∀ c ∈ cs, c ≤ 0x10FFFF ∧ ¬(0xD800 ≤ c ∧ c ≤ 0xDFFF)) :
    runes (cs.flatMap EncodeRune) = cs.map (fun c => (c, EncodeRune c)) := by
  have hb : cs.flatMap EncodeRune = bytesOf (cs.map (fun c => (c, EncodeRune c))) := by
    simp [bytesOf, List.flatMap_map]
  rw [hb]
  apply runes_bytesOf_selfDelimiting
  intro u hu
  obtain ⟨c, hc, rfl⟩ := List.mem_map.1 hu
  exact selfDelimiting_EncodeRune c (h c hc).1 (h c hc).2

theorem runsGo_all_space (us : List (Nat × GoString)) (h : ∀ u ∈ us, IsSpace u.1 = true) :
    runsGo IsSpace [] us = [] := by
  rw [List.eq_nil_iff_forall_not_mem]
  intro r hr
  obtain ⟨hne, hsp⟩ := runsGo_good us r hr
  obtain ⟨u, t, rfl⟩ := List.exists_cons_of_ne_nil hne
  have h1 := hsp u (List.mem_cons_self _ _)
  have h2 := h u (runsGo_mem us _ hr u (List.mem_cons_self _ _))
  rw [h1] at h2
  exact absurd h2 (by decide)

theorem RemoveDuplicateSpaces_only_space (cs : List Nat)
    (h : ∀ c ∈ cs, IsSpace c = true ∨ c ∈ denylist) :
    RemoveDuplicateSpaces (cs.flatMap EncodeRune) = [] := by
  have hsc : ∀ c ∈ cs, c ≤ 0x10FFFF ∧ ¬(0xD800 ≤ c ∧ c ≤ 0xDFFF) := by
    intro c hc
    rcases h c hc with hs | hd
    · have := IsSpace_le c hs
      omega
    · exact denylist_scalar c hd
  have hr := runes_flatMap_EncodeRune cs hsc
  have hsd : ∀ u ∈ runes (cs.flatMap EncodeRune), selfDelimiting u := by
    intro u hu
    rw [hr] at hu
    obtain ⟨c, hc, rfl⟩ := List.mem_map.1 hu
    exact selfDelimiting_EncodeRune c (hsc c hc).1 (hsc c hc).2
  have hrep : runes (Replacer.Replace zeroWithReplacer (cs.flatMap EncodeRune)) =
      (runes (cs.flatMap EncodeRune)).filter (fun u => decide (u.1 ∉ denylist)) := by
    rw [Replace_eq_filter]
    apply runes_bytesOf_selfDelimiting
    intro u hu
    exact hsd u (List.mem_filter.1 hu).1
  unfold RemoveDuplicateSpaces
  rw [Fields_eq_runs, hrep, runsGo_all_space]
  · rfl
  · intro u hu
    rw [List.mem_filter, hr] at hu
    obtain ⟨hu1, hu2⟩ := hu
    obtain ⟨c, hc, rfl⟩ := List.mem_map.1 hu1
    simp only [decide_eq_true_eq] at hu2
    rcases h c hc with hs | hd
    · exact hs
    · exact absurd hd hu2

theorem RemoveDuplicateSpaces_collapsed (s : GoString) :
    List.Chain' (fun a b => ¬(IsSpace a = true ∧ IsSpace b = true))
        (toRunes (RemoveDuplicateSpaces s)) ∧
      (∀ x, (toRunes (RemoveDuplicateSpaces s)).head? = some x → IsSpace x = false) ∧
      (∀ x, (toRunes (RemoveDuplicateSpaces s)).getLast? = some x → IsSpace x = false) ∧
      (∀ x ∈ toRunes (RemoveDuplicateSpaces s), IsSpace x = true → x = 0x20) := by
  unfold toRunes
  rw [runes_RemoveDuplicateSpaces]
  exact joinUnits_collapsed _ (runsGo_good _)

theorem RemoveDuplicateSpaces_no_denylisted (s : GoString) (h : ValidString s = true) :
    ∀ c ∈ toRunes (RemoveDuplicateSpaces s), c ∉ denylist := by
  intro c hc
  unfold toRunes at hc
  rw [runes_RemoveDuplicateSpaces, runes_Replace_of_valid s h] at hc
  obtain ⟨u, hu, rfl⟩ := List.mem_map.1 hc
  rcases joinUnits_mem _ u hu with rfl | ⟨r, hr, hur⟩
  · decide
  · have := runsGo_mem _ r hr u hur
    simpa using (List.mem_filter.1 this).2

theorem runes_RemoveAllSpaces_of_valid (s : GoString) (h : ValidString s = true) :
    runes (RemoveAllSpaces s) =
      ((runes s).filter (fun u => decide (u.1 ∉ denylist))).filter (fun u => !IsSpace u.1) := by
  rw [RemoveAllSpaces_eq_filter, runes_Replace_of_valid s h]
  apply runes_bytesOf_selfDelimiting
  intro u hu
  exact selfDelimiting_of_valid s h u (List.mem_filter.1 (List.mem_filter.1 hu).1).1

theorem RemoveAllSpaces_no_space (s : GoString) (h : ValidString s = true) :
    ∀ c ∈ toRunes (RemoveAllSpaces s), IsSpace c = false := by
  intro c hc
  unfold toRunes at hc
  rw [runes_RemoveAllSpaces_of_valid s h] at hc
  obtain ⟨u, hu, rfl⟩ := List.mem_map.1 hc
  simpa using (List.mem_filter.1 hu).2

theorem RemoveAllSpaces_eq_spec (s : GoString) (h : ValidString s = true) :
    RemoveAllSpaces s = specRemoveAllSpaces s := by
  rw [RemoveAllSpaces_eq_filter, runes_Replace_of_valid s h, specRemoveAllSpaces,
    List.filter_filter]
  congr 1
  apply List.filter_congr
  intro u _
  exact Bool.and_comm _ _

theorem RemoveDuplicateSpaces_idem (s : GoString) (h : ValidString s = true) :
    RemoveDuplicateSpaces (RemoveDuplicateSpaces s) = RemoveDuplicateSpaces s := by
  have hrunes := runes_RemoveDuplicateSpaces s
  have hnd : ∀ u ∈ runes (RemoveDuplicateSpaces s), u.1 ∉ denylist := by
    intro u hu
    exact RemoveDuplicateSpaces_no_denylisted s h u.1 (List.mem_map.2 ⟨u, hu, rfl⟩)
  have hrep : Replacer.Replace zeroWithReplacer (RemoveDuplicateSpaces s) =
      RemoveDuplicateSpaces s := by
    rw [Replace_eq_filter, List.filter_eq_self.2 (fun u hu => by simpa using hnd u hu),
      bytesOf_runes]
  have hdef : ∀ t, RemoveDuplicateSpaces t =
      Join (Fields (Replacer.Replace zeroWithReplacer t)) [0x20] := fun _ => rfl
  rw [hdef (RemoveDuplicateSpaces s), hrep, Fields_eq_runs, hrunes,
    runsGo_joinUnits _ (runsGo_good _), hdef s, Fields_eq_runs]

theorem RemoveAllSpaces_idem (s : GoString) (h : ValidString s = true) :
    RemoveAllSpaces (RemoveAllSpaces s) = RemoveAllSpaces s := by
  have hrunes := runes_RemoveAllSpaces_of_valid s h
  have hrep : Replacer.Replace zeroWithReplacer (RemoveAllSpaces s) = RemoveAllSpaces s := by
    rw [Replace_eq_filter, List.filter_eq_self.2, bytesOf_runes]
    intro u hu
    rw [hrunes] at hu
    exact (List.mem_filter.1 (List.mem_filter.1 hu).1).2
  rw [RemoveAllSpaces_eq_filter (RemoveAllSpaces s), hrep, List.filter_eq_self.2, bytesOf_runes]
  intro u hu
  rw [hrunes] at hu
  exact (List.mem_filter.1 hu).2

theorem IsSpace_iff (r : Nat) : IsSpace r = true ↔
    (r ∈ [0x09, 0x0A, 0x0B, 0x0C, 0x0D, 0x20, 0x85, 0xA0, 0x1680, 0x2028, 0x2029, 0x202F,
        0x205F, 0x3000] ∨ (0x2000 ≤ r ∧ r ≤ 0x200A)) := by
  unfold IsSpace
  simp only [List.mem_cons, List.mem_singleton, List.not_mem_nil, or_false]
  split_ifs with h
  · simp only [decide_eq_true_eq]
    omega
  · simp only [decide_eq_true_eq]
    omega

/-! ### Length of `UniqueOf` -/

theorem UniqueOf_length_max {α : Type} [DecidableEq α] (xs ys : List α)
    (hsub : List.Sublist ys xs) (hnd : ys.Nodup) : ys.length ≤ (UniqueOf xs).length := by
  have hsubset : ys ⊆ UniqueOf xs := by
    intro v hv
    exact (UniqueOf_mem_iff xs v).2 (hsub.subset hv)
  exact (List.subperm_of_subset hnd hsubset).length_le

theorem UniqueOf_length_eq_card {α : Type} [DecidableEq α] (xs : List α) :
    (UniqueOf xs).length = xs.toFinset.card := by
  rw [← List.toFinset_card_of_nodup (UniqueOf_nodup xs)]
  congr 1
  ext v
  simp [UniqueOf_mem_iff]

/-! ### `UniqueOf` on dynamic values -/

theorem stepDyn_fold_panicked (msg : String) (xs : List GoValue) :
    xs.foldl UniqueOf.stepDyn (Outcome.panicked msg) = Outcome.panicked msg := by
  induction xs with
  | nil => rfl
  | cons x xs ih => simpa [UniqueOf.stepDyn] using ih

theorem stepDyn_fold_hashable (xs : List GoValue) (s : UniqueState GoValue)
    (h : ∀ v ∈ xs, hashable v = true) :
    xs.foldl UniqueOf.stepDyn (Outcome.returned s) =
      Outcome.returned (xs.foldl UniqueOf.step s) := by
  induction xs generalizing s with
  | nil => rfl
  | cons x xs ih =>
    have hx : hashable x = true := h x (List.mem_cons_self _ _)
    simp only [List.foldl_cons, UniqueOf.stepDyn, hx, if_true]
    exact ih _ (fun v hv => h v (List.mem_cons_of_mem _ hv))

theorem stepDyn_fold_unhashable (xs : List GoValue) (s : UniqueState GoValue)
    (h : ∃ v ∈ xs, hashable v = false) :
    xs.foldl UniqueOf.stepDyn (Outcome.returned s) =
      Outcome.panicked "runtime error: hash of unhashable type" := by
  induction xs generalizing s with
  | nil =>
    obtain ⟨v, hv, -⟩ := h
    simp at hv
  | cons x xs ih =>
    by_cases hx : hashable x = true
    · simp only [List.foldl_cons, UniqueOf.stepDyn, hx, if_true]
      apply ih
      obtain ⟨v, hv, hv'⟩ := h
      rcases List.mem_cons.1 hv with rfl | hv
      · rw [hx] at hv'
        exact absurd hv' (by decide)
      · exact ⟨v, hv, hv'⟩
    · simp only [List.foldl_cons, UniqueOf.stepDyn, hx, if_false]
      exact stepDyn_fold_panicked _ xs

theorem UniqueOfDyn_of_hashable (xs : List GoValue) (h : ∀ v ∈ xs, hashable v = true) :
    UniqueOfDyn xs = Outcome.returned (UniqueOf xs) := by
  unfold UniqueOfDyn UniqueOf
  rw [stepDyn_fold_hashable xs _ h]

theorem UniqueOfDyn_of_unhashable (xs : List GoValue) (h : ∃ v ∈ xs, hashable v = false) :
    UniqueOfDyn xs = Outcome.panicked "runtime error: hash of unhashable type" := by
  unfold UniqueOfDyn
  rw [stepDyn_fold_unhashable xs _ h]

theorem deepEq_iff_eq (h : Heap GoAny) (a b : GoValue) (ha : isPtr a = false)
    (hb : isPtr b = false) : deepEq h a b = true ↔ a = b := by
  cases a <;> cases b <;> simp [deepEq, isPtr] at ha hb ⊢

theorem UniqueOf_two_pointers (p q : Ptr) (hpq : p ≠ q) :
    UniqueOf [GoValue.ptr p, GoValue.ptr q] = [GoValue.ptr p, GoValue.ptr q] := by
  have hne : GoValue.ptr q ≠ GoValue.ptr p := by
    intro h
    exact hpq (GoValue.ptr.inj h).symm
  simp [UniqueOf, UniqueOf.step, hne]

theorem UniqueOf_same_pointer (p : Ptr) :
    UniqueOf [GoValue.ptr p, GoValue.ptr p] = [GoValue.ptr p] := by
  simp [UniqueOf, UniqueOf.step]

/-! ### Pointers -/

theorem PointerOf_deref {α : Type} (h : Heap α) (v : α) :
    (PointerOf h v).2.deref (PointerOf h v).1 = some v := by
  simp [PointerOf, Heap.deref]

theorem PointerOf_keeps {α : Type} (h : Heap α) (v : α) (p : Ptr) (w : α)
    (hp : h.deref p = some w) :
    (PointerOf h v).2.deref p = some w ∧ p ≠ (PointerOf h v).1 := by
  cases p with
  | none => simp [Heap.deref] at hp
  | some a =>
    simp only [Heap.deref] at hp
    have ha : a < h.cells.length := by
      by_contra hlt
      rw [List.getElem?_eq_none (Nat.le_of_not_lt hlt)] at hp
      exact absurd hp (by simp)
    constructor
    · simp only [PointerOf, Heap.deref]
      rw [List.getElem?_append_left ha]
      exact hp
    · simp only [PointerOf]
      intro heq
      have := Option.some.inj heq
      omega

theorem ValueOf_nil {α : Type} [GoZero α] (h : Heap α) : ValueOf h none = GoZero.zero := rfl

theorem ValueOf_deref {α : Type} [GoZero α] (h : Heap α) (p : Ptr) (v : α)
    (hp : h.deref p = some v) : ValueOf h p = v := by
  simp [ValueOf, hp]

/-! ### The binder -/

theorem afterBind_error {τ : Type} (V : τ → Option GoError) (code : Nat) (msg : String) (i : τ) :
    afterBind V (some { code := code, message := GoValue.basic (GoAny.str msg) }, i) =
      Outcome.returned { err := some (GoError.errorString msg), target := i, validated := false } :=
  rfl

theorem afterBind_ok {τ : Type} (V : τ → Option GoError) (i : τ) :
    afterBind V (none, i) = Outcome.returned { err := V i, target := i, validated := true } :=
  rfl

theorem afterBind_not_string {τ : Type} (V : τ → Option GoError) (e : HTTPError) (i : τ)
    (h : ∀ msg, e.message ≠ GoValue.basic (GoAny.str msg)) :
    afterBind V (some e, i) =
      Outcome.panicked "interface conversion: interface {} is not string" := by
  obtain ⟨code, message⟩ := e
  cases message with
  | basic v =>
    cases v with
    | str s => exact absurd rfl (h s)
    | int n => rfl
    | bool b => rfl
  | ptr p => rfl
  | structv f => rfl
  | slice e => rfl
  | mapv e => rfl

/-- The five operations on an error with a string message and on a successful bind step:
the message comes back as the text of a new error and `ValidateStruct` is not called; after a
successful bind step the result is that of `ValidateStruct` on the bound target. -/
theorem binder_bind_then_validate {τ κ : Type} (b : DefaultBinder τ κ)
    (ValidateStruct : τ → Option GoError) (i : τ) (c : κ) :
    ((∀ code msg j,
        b.Bind i c = (some { code := code, message := GoValue.basic (GoAny.str msg) }, j) →
        EchoBinderWithValidation.Bind b ValidateStruct i c = Outcome.returned
          { err := some (GoError.errorString msg), target := j, validated := false }) ∧
      (∀ j, b.Bind i c = (none, j) →
        EchoBinderWithValidation.Bind b ValidateStruct i c = Outcome.returned
          { err := ValidateStruct j, target := j, validated := true })) ∧
    ((∀ code msg j,
        b.BindBody c i = (some { code := code, message := GoValue.basic (GoAny.str msg) }, j) →
        EchoBinderWithValidation.BindBody b ValidateStruct c i = Outcome.returned
          { err := some (GoError.errorString msg), target := j, validated := false }) ∧
      (∀ j, b.BindBody c i = (none, j) →
        EchoBinderWithValidation.BindBody b ValidateStruct c i = Outcome.returned
          { err := ValidateStruct j, target := j, validated := true })) ∧
    ((∀ code msg j,
        b.BindHeaders c i =
          (some { code := code, message := GoValue.basic (GoAny.str msg) }, j) →
        EchoBinderWithValidation.BindHeaders b ValidateStruct c i = Outcome.returned
          { err := some (GoError.errorString msg), target := j, validated := false }) ∧
      (∀ j, b.BindHeaders c i = (none, j) →
        EchoBinderWithValidation.BindHeaders b ValidateStruct c i = Outcome.returned
          { err := ValidateStruct j, target := j, validated := true })) ∧
    ((∀ code msg j,
        b.BindPathParams c i =
          (some { code := code, message := GoValue.basic (GoAny.str msg) }, j) →
        EchoBinderWithValidation.BindPathParams b ValidateStruct c i = Outcome.returned
          { err := some (GoError.errorString msg), target := j, validated := false }) ∧
      (∀ j, b.BindPathParams c i = (none, j) →
        EchoBinderWithValidation.BindPathParams b ValidateStruct c i = Outcome.returned
          { err := ValidateStruct j, target := j, validated := true })) ∧
    ((∀ code msg j,
        b.BindQueryParams c i =
          (some { code := code, message := GoValue.basic (GoAny.str msg) }, j) →
        EchoBinderWithValidation.BindQueryParams b ValidateStruct c i = Outcome.returned
          { err := some (GoError.errorString msg), target := j, validated := false }) ∧
      (∀ j, b.BindQueryParams c i = (none, j) →
        EchoBinderWithValidation.BindQueryParams b ValidateStruct c i = Outcome.returned
          { err := ValidateStruct j, target := j, validated := true })) := by
  refine ⟨⟨?_, ?_⟩, ⟨?_, ?_⟩, ⟨?_, ?_⟩, ⟨?_, ?_⟩, ⟨?_, ?_⟩⟩
  · intro code msg j h
    rw [EchoBinderWithValidation.Bind, h, afterBind_error]
  · intro j h
    rw [EchoBinderWithValidation.Bind, h, afterBind_ok]
  · intro code msg j h
    rw [EchoBinderWithValidation.BindBody, h, afterBind_error]
  · intro j h
    rw [EchoBinderWithValidation.BindBody, h, afterBind_ok]
  · intro code msg j h
    rw [EchoBinderWithValidation.BindHeaders, h, afterBind_error]
  · intro j h
    rw [EchoBinderWithValidation.BindHeaders, h, afterBind_ok]
  · intro code msg j h
    rw [EchoBinderWithValidation.BindPathParams, h, afterBind_error]
  · intro j h
    rw [EchoBinderWithValidation.BindPathParams, h, afterBind_ok]
  · intro code msg j h
    rw [EchoBinderWithValidation.BindQueryParams, h, afterBind_error]
  · intro j h
    rw [EchoBinderWithValidation.BindQueryParams, h, afterBind_ok]

/-- The five operations at concrete inputs: a bind step failing with the message
`"bad request"` gives that message back without validating, and a successful bind step gives
the validation result. -/
theorem binder_bind_then_validate_example :
    EchoBinderWithValidation.Bind
        (binderReturning
          (some { code := 400, message := GoValue.basic (GoAny.str "bad request") }))
        (fun _ => some (GoError.other "invalid")) 7 () =
      Outcome.returned
        { err := some (GoError.errorString "bad request"), target := 7, validated := false } ∧
    EchoBinderWithValidation.Bind (binderReturning none)
        (fun _ => some (GoError.other "invalid")) 7 () =
      Outcome.returned { err := some (GoError.other "invalid"), target := 7, validated := true } :=
  ⟨(binder_bind_then_validate _ _ 7 ()).1.1 400 "bad request" 7 rfl,
    (binder_bind_then_validate _ _ 7 ()).1.2 7 rfl⟩

/-- Whenever `BindBody` of the default binder hands on an error whose `Message` is not a
string, the operations `BindBody` and `Bind` panic. -/
theorem binder_panics_of_not_string {τ κ : Type} (b : DefaultBinder τ κ)
    (ValidateStruct : τ → Option GoError) (i : τ) (c : κ) (e : HTTPError) (j : τ)
    (h : ∀ msg, e.message ≠ GoValue.basic (GoAny.str msg)) :
    (b.BindBody c i = (some e, j) →
      EchoBinderWithValidation.BindBody b ValidateStruct c i =
        Outcome.panicked "interface conversion: interface {} is not string") ∧
    (b.Bind i c = (some e, j) →
      EchoBinderWithValidation.Bind b ValidateStruct i c =
        Outcome.panicked "interface conversion: interface {} is not string") := by
  constructor
  · intro hb
    rw [EchoBinderWithValidation.BindBody, hb, afterBind_not_string ValidateStruct e j h]
  · intro hb
    rw [EchoBinderWithValidation.Bind, hb, afterBind_not_string ValidateStruct e j h]

/-! ### `strings.Split` and `PackageName` -/

theorem Split_go_nil (sep : GoString) (fuel : Nat) (cur : GoString) :
    Split.go sep fuel cur [] = [cur] := by
  cases fuel <;> rfl

theorem Split_go_ne_nil (sep : GoString) (fuel : Nat) (cur s : GoString) :
    Split.go sep fuel cur s ≠ [] := by
  induction fuel generalizing cur s with
  | zero => simp [Split.go]
  | succ k ih =>
    cases s with
    | nil => simp [Split.go]
    | cons b t =>
      simp only [Split.go]
      split_ifs
      · simp
      · exact ih _ _

theorem Split_go_single (c : Nat) (fuel : Nat) (cur : GoString) (b : Nat) (t : GoString) :
    Split.go [c] (fuel + 1) cur (b :: t) =
      if b = c then cur :: Split.go [c] fuel [] t else Split.go [c] fuel (cur ++ [b]) t := by
  simp only [Split.go, List.cons_prefix_cons, List.nil_prefix, and_true, ne_eq,
    List.cons_ne_nil, not_false_eq_true, true_and, List.length_singleton, List.drop_succ_cons,
    List.drop_zero]
  by_cases h : b = c
  · simp [h]
  · have h' : ¬ c = b := fun e => h e.symm
    simp [h, h']

theorem Split_go_head (c : Nat) (s : GoString) (fuel : Nat) (cur : GoString)
    (hf : s.length ≤ fuel) :
    (Split.go [c] fuel cur s).head? = some (cur ++ s.takeWhile (fun b => b ≠ c)) := by
  induction s generalizing fuel cur with
  | nil => simp [Split_go_nil]
  | cons b t ih =>
    cases fuel with
    | zero => simp at hf
    | succ k =>
      simp only [List.length_cons, Nat.add_le_add_iff_right] at hf
      rw [Split_go_single]
      by_cases h : b = c
      · simp [h]
      · rw [if_neg h, ih k _ hf]
        simp [h]

theorem Split_go_last (c : Nat) (s : GoString) (fuel : Nat) (cur : GoString)
    (hf : s.length ≤ fuel) :
    (Split.go [c] fuel cur s).getLast? =
      some (s.foldl (fun acc b => if b = c then [] else acc ++ [b]) cur) := by
  induction s generalizing fuel cur with
  | nil => simp [Split_go_nil]
  | cons b t ih =>
    cases fuel with
    | zero => simp at hf
    | succ k =>
      simp only [List.length_cons, Nat.add_le_add_iff_right] at hf
      rw [Split_go_single, List.foldl_cons]
      by_cases h : b = c
      · rw [if_pos h, if_pos h]
        obtain ⟨x, xs, hx⟩ := List.exists_cons_of_ne_nil (Split_go_ne_nil [c] k [] t)
        rw [hx, List.getLast?_cons_cons, ← hx]
        exact ih k [] hf
      · rw [if_neg h, if_neg h]
        exact ih k _ hf

theorem foldl_lastSegment (c : Nat) (s cur : GoString) :
    s.foldl (fun acc b => if b = c then [] else acc ++ [b]) cur =
      (if c ∈ s then [] else cur) ++ (s.reverse.takeWhile (fun b => b ≠ c)).reverse := by
  induction s using List.reverseRecOn with
  | nil => simp
  | append_singleton s b ih =>
    rw [List.foldl_append, List.foldl_cons, List.foldl_nil, ih]
    by_cases h : b = c
    · subst h
      simp
    · have h' : ¬ c = b := fun e => h e.symm
      simp [h, h']

theorem PackageName_eq (n : GoString) :
    PackageName n = Outcome.returned (beforeFirstDot (lastSegment n)) := by
  have hlast : (Split n [0x2F]).getLast? = some (lastSegment n) := by
    unfold Split
    rw [Split_go_last 0x2F n n.length [] (Nat.le_refl _), foldl_lastSegment]
    unfold lastSegment
    by_cases h : 0x2F ∈ n <;> simp [h]
  have hhead : (Split (lastSegment n) [0x2E]).head? = some (beforeFirstDot (lastSegment n)) := by
    unfold Split
    rw [Split_go_head 0x2E _ _ [] (Nat.le_refl _)]
    simp [beforeFirstDot]
  unfold PackageName
  simp only []
  rw [← List.getLast?_eq_getElem?, hlast]
  simp only []
  rw [← List.head?_eq_getElem?, hhead]

theorem Split_length_pos (s sep : GoString) : 0 < (Split s sep).length :=
  List.length_pos.2 (Split_go_ne_nil sep s.length [] s)

/-! ### Words around a denylisted character -/

theorem isWord_spec (u : GoString) (h : isWord u = true) :
    ValidString u = true ∧ u ≠ [] ∧
      ∀ x ∈ runes u, IsSpace x.1 = false ∧ x.1 ∉ denylist := by
  unfold isWord at h
  simp only [Bool.and_eq_true, decide_eq_true_eq, List.all_eq_true, Bool.not_eq_true'] at h
  obtain ⟨⟨h1, h2⟩, h3⟩ := h
  refine ⟨h1, h2, ?_⟩
  intro x hx
  exact h3 x.1 (List.mem_map.2 ⟨x, hx, rfl⟩)

theorem runsGo_single (f : Nat → Bool) (x : List (Nat × GoString)) (hne : x ≠ [])
    (hx : ∀ u ∈ x, f u.1 = false) : runsGo f [] x = [x] := by
  have := runsGo_append_nonsep f [] x [] hx
  rw [List.append_nil, List.nil_append] at this
  rw [this, runsGo, if_neg hne]

theorem runes_ne_nil (u : GoString) (h : u ≠ []) : runes u ≠ [] := by
  intro h0
  have := bytesOf_runes u
  rw [h0, bytesOf_nil] at this
  exact h this.symm

theorem Join_singleton (w sep : GoString) : Join [w] sep = w := rfl

theorem Join_pair (a b sep : GoString) : Join [a, b] sep = a ++ sep ++ b := rfl

theorem Replace_of_no_denylisted (u : GoString) (h : ∀ x ∈ runes u, x.1 ∉ denylist) :
    Replacer.Replace zeroWithReplacer u = u := by
  rw [Replace_eq_filter, List.filter_eq_self.2 (fun x hx => by simpa using h x hx),
    bytesOf_runes]

theorem runes_around (u v : GoString) (z : Nat) (hu : ValidString u = true)
    (hv : ValidString v = true) (hz : z ∈ denylist) :
    runes (u ++ EncodeRune z ++ v) = runes u ++ (z, EncodeRune z) :: runes v := by
  have hb : u ++ EncodeRune z ++ v = bytesOf (runes u ++ (z, EncodeRune z) :: runes v) := by
    rw [bytesOf_append, bytesOf_cons, bytesOf_runes, bytesOf_runes, List.append_assoc]
  rw [hb]
  apply runes_bytesOf_selfDelimiting
  intro x hx
  rcases List.mem_append.1 hx with hx | hx
  · exact selfDelimiting_of_valid u hu x hx
  · rcases List.mem_cons.1 hx with rfl | hx
    · exact selfDelimiting_EncodeRune z (denylist_scalar z hz).1 (denylist_scalar z hz).2
    · exact selfDelimiting_of_valid v hv x hx

theorem runes_append_of_valid (u v : GoString) (hu : ValidString u = true)
    (hv : ValidString v = true) : runes (u ++ v) = runes u ++ runes v := by
  have hb : u ++ v = bytesOf (runes u ++ runes v) := by
    rw [bytesOf_append, bytesOf_runes, bytesOf_runes]
  rw [hb]
  apply runes_bytesOf_selfDelimiting
  intro x hx
  rcases List.mem_append.1 hx with hx | hx
  · exact selfDelimiting_of_valid u hu x hx
  · exact selfDelimiting_of_valid v hv x hx

theorem Fields_of_no_space (w : GoString) (hne : w ≠ [])
    (h : ∀ x ∈ runes w, IsSpace x.1 = false) : Fields w = [w] := by
  rw [Fields_eq_runs, runsGo_single IsSpace _ (runes_ne_nil w hne) h]
  simp [bytesOf_runes]

theorem Replace_around (u v : GoString) (z : Nat) (hu : isWord u = true)
    (hv : isWord v = true) (hz : z ∈ denylist) :
    Replacer.Replace zeroWithReplacer (u ++ EncodeRune z ++ v) = u ++ v := by
  obtain ⟨hu1, -, hu3⟩ := isWord_spec u hu
  obtain ⟨hv1, -, hv3⟩ := isWord_spec v hv
  rw [Replace_eq_filter, runes_around u v z hu1 hv1 hz, List.filter_append, List.filter_cons]
  have hzf : decide ((z, EncodeRune z).1 ∉ denylist) = false := by simpa using hz
  rw [hzf]
  simp only [Bool.false_eq_true, if_false]
  rw [List.filter_eq_self.2 (fun x hx => by simpa using (hu3 x hx).2),
    List.filter_eq_self.2 (fun x hx => by simpa using (hv3 x hx).2), bytesOf_append,
    bytesOf_runes, bytesOf_runes]

theorem RemoveDuplicateSpaces_around (u v : GoString) (z : Nat) (hu : isWord u = true)
    (hv : isWord v = true) (hz : z ∈ denylist) :
    RemoveDuplicateSpaces (u ++ EncodeRune z ++ v) = u ++ v := by
  obtain ⟨hu1, hu2, hu3⟩ := isWord_spec u hu
  obtain ⟨hv1, -, hv3⟩ := isWord_spec v hv
  unfold RemoveDuplicateSpaces
  rw [Replace_around u v z hu hv hz, Fields_of_no_space (u ++ v) (by simp [hu2]), Join_singleton]
  intro x hx
  rw [runes_append_of_valid u v hu1 hv1] at hx
  rcases List.mem_append.1 hx with hx | hx
  · exact (hu3 x hx).1
  · exact (hv3 x hx).1

theorem reversedPipeline_around_nonspace (u v : GoString) (z : Nat) (hu : isWord u = true)
    (hv : isWord v = true) (hz : z ∈ denylist) (hzs : IsSpace z = false) :
    reversedPipeline (u ++ EncodeRune z ++ v) = u ++ v := by
  obtain ⟨hu1, hu2, hu3⟩ := isWord_spec u hu
  obtain ⟨hv1, -, hv3⟩ := isWord_spec v hv
  unfold reversedPipeline
  rw [Fields_of_no_space (u ++ EncodeRune z ++ v) (by simp [hu2]), List.map_singleton,
    Replace_around u v z hu hv hz, Join_singleton]
  intro x hx
  rw [runes_around u v z hu1 hv1 hz] at hx
  rcases List.mem_append.1 hx with hx | hx
  · exact (hu3 x hx).1
  · rcases List.mem_cons.1 hx with rfl | hx
    · exact hzs
    · exact (hv3 x hx).1

theorem reversedPipeline_around_space (u v : GoString) (z : Nat) (hu : isWord u = true)
    (hv : isWord v = true) (hz : z ∈ denylist) (hzs : IsSpace z = true) :
    reversedPipeline (u ++ EncodeRune z ++ v) = u ++ [0x20] ++ v := by
  obtain ⟨hu1, hu2, hu3⟩ := isWord_spec u hu
  obtain ⟨hv1, hv2, hv3⟩ := isWord_spec v hv
  have hruns : runsGo IsSpace [] (runes u ++ (z, EncodeRune z) :: runes v) =
      [runes u, runes v] := by
    rw [runsGo_append_nonsep IsSpace [] (runes u) _ (fun x hx => (hu3 x hx).1), List.nil_append,
      runsGo, if_pos hzs, if_neg (runes_ne_nil u hu2),
      runsGo_single IsSpace _ (runes_ne_nil v hv2) (fun x hx => (hv3 x hx).1)]
    rfl
  unfold reversedPipeline
  rw [Fields_eq_runs, runes_around u v z hu1 hv1 hz, hruns]
  simp only [List.map_cons, List.map_nil, bytesOf_runes]
  rw [Replace_of_no_denylisted u (fun x hx => (hu3 x hx).2),
    Replace_of_no_denylisted v (fun x hx => (hv3 x hx).2), Join_pair]

theorem denylist_space (z : Nat) (hz : z ∈ denylist) :
    (z = noBreakingSpace → IsSpace z = true) ∧ (z ≠ noBreakingSpace → IsSpace z = false) := by
  simp only [denylist, List.mem_cons, List.mem_singleton, List.not_mem_nil, or_false] at hz
  rcases hz with rfl | rfl | rfl | rfl | rfl | rfl | rfl <;> decide

/-! ### A denylisted character next to white space -/

theorem runsGo_sep_head (f : Nat → Bool) (x : Nat × GoString) (rest : List (Nat × GoString))
    (hx : f x.1 = true) : runsGo f [] (x :: rest) = runsGo f [] rest := by
  rw [runsGo, if_pos hx, if_pos rfl, List.nil_append]

theorem runsGo_word_then_sep (f : Nat → Bool) (a : List (Nat × GoString)) (x : Nat × GoString)
    (rest : List (Nat × GoString)) (hne : a ≠ []) (ha : ∀ u ∈ a, f u.1 = false)
    (hx : f x.1 = true) : runsGo f [] (a ++ x :: rest) = a :: runsGo f [] rest := by
  rw [runsGo_append_nonsep f [] a _ ha, List.nil_append, runsGo, if_pos hx, if_neg hne]
  rfl

theorem Replace_units (us : List (Nat × GoString)) (h : ∀ u ∈ us, selfDelimiting u) :
    Replacer.Replace zeroWithReplacer (bytesOf us) =
      bytesOf (us.filter (fun u => decide (u.1 ∉ denylist))) := by
  rw [Replace_eq_filter, runes_bytesOf_selfDelimiting us h]

theorem Fields_units (us : List (Nat × GoString)) (h : ∀ u ∈ us, selfDelimiting u) :
    Fields (bytesOf us) = (runsGo IsSpace [] us).map bytesOf := by
  rw [Fields_eq_runs, runes_bytesOf_selfDelimiting us h]

theorem selfDelimiting_around (u v : GoString) (mid : List (Nat × GoString))
    (hu : ValidString u = true) (hv : ValidString v = true)
    (hmid : ∀ x ∈ mid, selfDelimiting x) :
    ∀ x ∈ runes u ++ (mid ++ runes v), selfDelimiting x := by
  intro x hx
  rcases List.mem_append.1 hx with hx | hx
  · exact selfDelimiting_of_valid u hu x hx
  · rcases List.mem_append.1 hx with hx | hx
    · exact hmid x hx
    · exact selfDelimiting_of_valid v hv x hx

theorem filter_word (u : GoString) (h : ∀ x ∈ runes u, x.1 ∉ denylist) :
    (runes u).filter (fun x => decide (x.1 ∉ denylist)) = runes u :=
  List.filter_eq_self.2 (fun x hx => by simpa using h x hx)

theorem Fields_spaces_between (u v : GoString) (hu : isWord u = true) (hv : isWord v = true) :
    Fields (u ++ [0x20] ++ v) = [u, v] ∧ Fields (u ++ [0x20, 0x20] ++ v) = [u, v] := by
  obtain ⟨hu1, hu2, hu3⟩ := isWord_spec u hu
  obtain ⟨hv1, hv2, hv3⟩ := isWord_spec v hv
  have hrv := runsGo_single IsSpace _ (runes_ne_nil v hv2) (fun x hx => (hv3 x hx).1)
  constructor
  · have hs : u ++ [0x20] ++ v = bytesOf (runes u ++ ([spaceUnit] ++ runes v)) := by
      simp [bytesOf_append, bytesOf_cons, bytesOf_nil, bytesOf_runes, spaceUnit]
    have hsd := selfDelimiting_around u v [spaceUnit] hu1 hv1
      (fun x hx => by rw [List.mem_singleton.1 hx]; exact selfDelimiting_spaceUnit)
    rw [hs, Fields_units _ hsd]
    rw [show runes u ++ ([spaceUnit] ++ runes v) = runes u ++ spaceUnit :: runes v from rfl,
      runsGo_word_then_sep IsSpace (runes u) spaceUnit _ (runes_ne_nil u hu2)
        (fun x hx => (hu3 x hx).1) rfl, hrv]
    simp only [List.map_cons, List.map_nil, bytesOf_runes]
  · have hs : u ++ [0x20, 0x20] ++ v =
        bytesOf (runes u ++ ([spaceUnit, spaceUnit] ++ runes v)) := by
      simp [bytesOf_append, bytesOf_cons, bytesOf_nil, bytesOf_runes, spaceUnit]
    have hsd := selfDelimiting_around u v [spaceUnit, spaceUnit] hu1 hv1
      (fun x hx => by
        rcases List.mem_cons.1 hx with rfl | hx
        · exact selfDelimiting_spaceUnit
        · rw [List.mem_singleton.1 hx]; exact selfDelimiting_spaceUnit)
    rw [hs, Fields_units _ hsd]
    rw [show runes u ++ ([spaceUnit, spaceUnit] ++ runes v) =
        runes u ++ spaceUnit :: spaceUnit :: runes v from rfl,
      runsGo_word_then_sep IsSpace (runes u) spaceUnit _ (runes_ne_nil u hu2)
        (fun x hx => (hu3 x hx).1) rfl, runsGo_sep_head IsSpace spaceUnit _ rfl, hrv]
    simp only [List.map_cons, List.map_nil, bytesOf_runes]

theorem space_not_denylisted : decide (spaceUnit.1 ∉ denylist) = true := by decide

theorem pipelines_spaced (u v : GoString) (z : Nat) (hu : isWord u = true)
    (hv : isWord v = true) (hz : z ∈ denylist) (hzs : IsSpace z = false) :
    reversedPipeline (u ++ [0x20] ++ EncodeRune z ++ [0x20] ++ v) = u ++ [0x20, 0x20] ++ v ∧
    RemoveDuplicateSpaces (u ++ [0x20] ++ EncodeRune z ++ [0x20] ++ v) = u ++ [0x20] ++ v := by
  obtain ⟨hu1, hu2, hu3⟩ := isWord_spec u hu
  obtain ⟨hv1, hv2, hv3⟩ := isWord_spec v hv
  have hzu : selfDelimiting (z, EncodeRune z) :=
    selfDelimiting_EncodeRune z (denylist_scalar z hz).1 (denylist_scalar z hz).2
  have hzf : decide ((z, EncodeRune z).1 ∉ denylist) = false := by simpa using hz
  have hrv := runsGo_single IsSpace _ (runes_ne_nil v hv2) (fun x hx => (hv3 x hx).1)
  have hs : u ++ [0x20] ++ EncodeRune z ++ [0x20] ++ v =
      bytesOf (runes u ++ ([spaceUnit, (z, EncodeRune z), spaceUnit] ++ runes v)) := by
    simp [bytesOf_append, bytesOf_cons, bytesOf_nil, bytesOf_runes, spaceUnit]
  have hsd := selfDelimiting_around u v [spaceUnit, (z, EncodeRune z), spaceUnit] hu1 hv1
    (fun x hx => by
      rcases List.mem_cons.1 hx with rfl | hx
      · exact selfDelimiting_spaceUnit
      · rcases List.mem_cons.1 hx with rfl | hx
        · exact hzu
        · rw [List.mem_singleton.1 hx]; exact selfDelimiting_spaceUnit)
  constructor
  · unfold reversedPipeline
    rw [hs, Fields_units _ hsd]
    rw [show runes u ++ ([spaceUnit, (z, EncodeRune z), spaceUnit] ++ runes v) =
        runes u ++ spaceUnit :: ([(z, EncodeRune z)] ++ spaceUnit :: runes v) from rfl,
      runsGo_word_then_sep IsSpace (runes u) spaceUnit _ (runes_ne_nil u hu2)
        (fun x hx => (hu3 x hx).1) rfl,
      runsGo_word_then_sep IsSpace [(z, EncodeRune z)] spaceUnit _ (by simp)
        (fun x hx => by rw [List.mem_singleton.1 hx]; exact hzs) rfl, hrv]
    simp only [List.map_cons, List.map_nil, bytesOf_runes]
    rw [Replace_of_no_denylisted u (fun x hx => (hu3 x hx).2),
      Replace_of_no_denylisted v (fun x hx => (hv3 x hx).2),
      Replace_units [(z, EncodeRune z)]
        (fun x hx => by rw [List.mem_singleton.1 hx]; exact hzu),
      List.filter_cons, hzf]
    simp [Join, bytesOf_nil]
  · unfold RemoveDuplicateSpaces
    rw [hs, Replace_units _ hsd, List.filter_append, List.filter_append,
      filter_word u (fun x hx => (hu3 x hx).2), filter_word v (fun x hx => (hv3 x hx).2)]
    have hf : [spaceUnit, (z, EncodeRune z), spaceUnit].filter
        (fun x => decide (x.1 ∉ denylist)) = [spaceUnit, spaceUnit] := by
      rw [List.filter_cons, space_not_denylisted, if_pos rfl, List.filter_cons, hzf,
        List.filter_cons, space_not_denylisted]
      rfl
    rw [hf]
    have hb : bytesOf (runes u ++ ([spaceUnit, spaceUnit] ++ runes v)) =
        u ++ [0x20, 0x20] ++ v := by
      simp [bytesOf_append, bytesOf_cons, bytesOf_nil, bytesOf_runes, spaceUnit]
    rw [hb, (Fields_spaces_between u v hu hv).2, Join_pair]

theorem pipelines_space_before (u v : GoString) (z : Nat) (hu : isWord u = true)
    (hv : isWord v = true) (hz : z ∈ denylist) (hzs : IsSpace z = false) :
    reversedPipeline (u ++ [0x20] ++ EncodeRune z ++ v) = u ++ [0x20] ++ v ∧
    RemoveDuplicateSpaces (u ++ [0x20] ++ EncodeRune z ++ v) = u ++ [0x20] ++ v := by
  obtain ⟨hu1, hu2, hu3⟩ := isWord_spec u hu
  obtain ⟨hv1, hv2, hv3⟩ := isWord_spec v hv
  have hzu : selfDelimiting (z, EncodeRune z) :=
    selfDelimiting_EncodeRune z (denylist_scalar z hz).1 (denylist_scalar z hz).2
  have hzf : decide ((z, EncodeRune z).1 ∉ denylist) = false := by simpa using hz
  have hs : u ++ [0x20] ++ EncodeRune z ++ v =
      bytesOf (runes u ++ ([spaceUnit, (z, EncodeRune z)] ++ runes v)) := by
    simp [bytesOf_append, bytesOf_cons, bytesOf_nil, bytesOf_runes, spaceUnit]
  have hsd := selfDelimiting_around u v [spaceUnit, (z, EncodeRune z)] hu1 hv1
    (fun x hx => by
      rcases List.mem_cons.1 hx with rfl | hx
      · exact selfDelimiting_spaceUnit
      · rw [List.mem_singleton.1 hx]; exact hzu)
  have hzv : ∀ x ∈ (z, EncodeRune z) :: runes v, selfDelimiting x := by
    intro x hx
    rcases List.mem_cons.1 hx with rfl | hx
    · exact hzu
    · exact selfDelimiting_of_valid v hv1 x hx
  constructor
  · unfold reversedPipeline
    rw [hs, Fields_units _ hsd]
    rw [show runes u ++ ([spaceUnit, (z, EncodeRune z)] ++ runes v) =
        runes u ++ spaceUnit :: ((z, EncodeRune z) :: runes v) from rfl,
      runsGo_word_then_sep IsSpace (runes u) spaceUnit _ (runes_ne_nil u hu2)
        (fun x hx => (hu3 x hx).1) rfl,
      runsGo_single IsSpace ((z, EncodeRune z) :: runes v) (by simp)
        (fun x hx => by
          rcases List.mem_cons.1 hx with rfl | hx
          · exact hzs
          · exact (hv3 x hx).1)]
    simp only [List.map_cons, List.map_nil, bytesOf_runes]
    rw [Replace_of_no_denylisted u (fun x hx => (hu3 x hx).2), Replace_units _ hzv,
      List.filter_cons, hzf]
    simp only [Bool.false_eq_true, if_false]
    rw [filter_word v (fun x hx => (hv3 x hx).2), bytesOf_runes, Join_pair]
  · unfold RemoveDuplicateSpaces
    rw [hs, Replace_units _ hsd, List.filter_append, List.filter_append,
      filter_word u (fun x hx => (hu3 x hx).2), filter_word v (fun x hx => (hv3 x hx).2)]
    have hf : [spaceUnit, (z, EncodeRune z)].filter
        (fun x => decide (x.1 ∉ denylist)) = [spaceUnit] := by
      rw [List.filter_cons, space_not_denylisted, if_pos rfl, List.filter_cons, hzf]
      rfl
    rw [hf]
    have hb : bytesOf (runes u ++ ([spaceUnit] ++ runes v)) = u ++ [0x20] ++ v := by
      simp [bytesOf_append, bytesOf_cons, bytesOf_nil, bytesOf_runes, spaceUnit]
    rw [hb, (Fields_spaces_between u v hu hv).1, Join_pair]

theorem pipelines_space_after (u v : GoString) (z : Nat) (hu : isWord u = true)
    (hv : isWord v = true) (hz : z ∈ denylist) (hzs : IsSpace z = false) :
    reversedPipeline (u ++ EncodeRune z ++ [0x20] ++ v) = u ++ [0x20] ++ v ∧
    RemoveDuplicateSpaces (u ++ EncodeRune z ++ [0x20] ++ v) = u ++ [0x20] ++ v := by
  obtain ⟨hu1, hu2, hu3⟩ := isWord_spec u hu
  obtain ⟨hv1, hv2, hv3⟩ := isWord_spec v hv
  have hzu : selfDelimiting (z, EncodeRune z) :=
    selfDelimiting_EncodeRune z (denylist_scalar z hz).1 (denylist_scalar z hz).2
  have hzf : decide ((z, EncodeRune z).1 ∉ denylist) = false := by simpa using hz
  have hrv := runsGo_single IsSpace _ (runes_ne_nil v hv2) (fun x hx => (hv3 x hx).1)
  have hs : u ++ EncodeRune z ++ [0x20] ++ v =
      bytesOf (runes u ++ ([(z, EncodeRune z), spaceUnit] ++ runes v)) := by
    simp [bytesOf_append, bytesOf_cons, bytesOf_nil, bytesOf_runes, spaceUnit]
  have hsd := selfDelimiting_around u v [(z, EncodeRune z), spaceUnit] hu1 hv1
    (fun x hx => by
      rcases List.mem_cons.1 hx with rfl | hx
      · exact hzu
      · rw [List.mem_singleton.1 hx]; exact selfDelimiting_spaceUnit)
  have huz : ∀ x ∈ runes u ++ [(z, EncodeRune z)], selfDelimiting x := by
    intro x hx
    rcases List.mem_append.1 hx with hx | hx
    · exact selfDelimiting_of_valid u hu1 x hx
    · rw [List.mem_singleton.1 hx]; exact hzu
  constructor
  · unfold reversedPipeline
    rw [hs, Fields_units _ hsd]
    rw [show runes u ++ ([(z, EncodeRune z), spaceUnit] ++ runes v) =
        runes u ++ ([(z, EncodeRune z)] ++ spaceUnit :: runes v) from rfl,
      ← List.append_assoc,
      runsGo_word_then_sep IsSpace (runes u ++ [(z, EncodeRune z)]) spaceUnit _ (by simp)
        (fun x hx => by
          rcases List.mem_append.1 hx with hx | hx
          · exact (hu3 x hx).1
          · rw [List.mem_singleton.1 hx]; exact hzs) rfl, hrv]
    simp only [List.map_cons, List.map_nil, bytesOf_runes]
    rw [Replace_of_no_denylisted v (fun x hx => (hv3 x hx).2), Replace_units _ huz,
      List.filter_append, filter_word u (fun x hx => (hu3 x hx).2), List.filter_cons, hzf]
    simp only [Bool.false_eq_true, if_false, List.filter_nil, List.append_nil]
    rw [bytesOf_runes, Join_pair]
  · unfold RemoveDuplicateSpaces
    rw [hs, Replace_units _ hsd, List.filter_append, List.filter_append,
      filter_word u (fun x hx => (hu3 x hx).2), filter_word v (fun x hx => (hv3 x hx).2)]
    have hf : [(z, EncodeRune z), spaceUnit].filter
        (fun x => decide (x.1 ∉ denylist)) = [spaceUnit] := by
      rw [List.filter_cons, hzf, List.filter_cons, space_not_denylisted]
      rfl
    rw [hf]
    have hb : bytesOf (runes u ++ ([spaceUnit] ++ runes v)) = u ++ [0x20] ++ v := by
      simp [bytesOf_append, bytesOf_cons, bytesOf_nil, bytesOf_runes, spaceUnit]
    rw [hb, (Fields_spaces_between u v hu hv).1, Join_pair]

theorem append_sep_ne (u v a b : GoString) (h : a.length ≠ b.length) :
    u ++ a ++ v ≠ u ++ b ++ v := by
  intro he
  have := congrArg List.length he
  simp only [List.length_append] at this
  omega

/-! ## The claims -/

/-- C1: for every sequence `xs` over a type with decidable equality, `UniqueOf xs` is exactly
the sequence of first occurrences of `xs` (position `i` is kept if and only if no earlier
position holds an equal element, and kept elements stay in their original order); in
particular `UniqueOf [] = []`, and the three inputs of `TestUniqueOf` give `[1,2,3]`,
`["foo","bar","baz"]` and `[1,"foo",true,2]`. -/
theorem C1_UniqueOf_first_occurrences :
    (∀ (α : Type) [DecidableEq α] (xs : List α), UniqueOf xs = firstOccurrences xs) ∧
    UniqueOf ([] : List GoAny) = [] ∧
    UniqueOf [GoAny.int 1, GoAny.int 2, GoAny.int 3, GoAny.int 2, GoAny.int 1] =
      [GoAny.int 1, GoAny.int 2, GoAny.int 3] ∧
    UniqueOf [GoAny.str "foo", GoAny.str "bar", GoAny.str "baz", GoAny.str "foo"] =
      [GoAny.str "foo", GoAny.str "bar", GoAny.str "baz"] ∧
    UniqueOf [GoAny.int 1, GoAny.str "foo", GoAny.bool true, GoAny.int 2, GoAny.str "foo"] =
      [GoAny.int 1, GoAny.str "foo", GoAny.bool true, GoAny.int 2] :=
  ⟨fun _ _ xs => UniqueOf_eq_firstOccurrences xs, by decide, by decide, by decide, by decide⟩

/-- C2: for every input string `s`, `RemoveDuplicateSpaces s` equals the result of deleting
every occurrence of the seven denylisted characters, splitting what remains on runs of Unicode
white space while discarding empty fragments, and joining the fragments with one ASCII space;
in particular the empty string gives the empty string, an input made only of white space and
denylisted characters gives the empty string, and `"a\u200B  b\tc"` gives `"a b c"`. -/
theorem C2_RemoveDuplicateSpaces_refines_spec :
    (∀ s : GoString, RemoveDuplicateSpaces s = specRemoveDuplicateSpaces s) ∧
    RemoveDuplicateSpaces [] = [] ∧
    (∀ cs : List Nat, (∀ c ∈ cs, IsSpace c = true ∨ c ∈ denylist) →
      RemoveDuplicateSpaces (cs.flatMap EncodeRune) = []) ∧
    RemoveDuplicateSpaces (goString "a\u200B  b\tc") = goString "a b c" :=
  ⟨RemoveDuplicateSpaces_eq_spec, by decide, RemoveDuplicateSpaces_only_space, by decide⟩

/-- Witness for C2: a string of white space and denylisted characters only (space, zero-width
space, tab, no-break space, ideographic space, zero-width no-break space) is mapped to the
empty string. -/
theorem C2_RemoveDuplicateSpaces_refines_spec_witness :
    RemoveDuplicateSpaces ([0x20, 0x200B, 0x09, 0xA0, 0x3000, 0xFEFF].flatMap EncodeRune) = [] :=
  C2_RemoveDuplicateSpaces_refines_spec.2.2.1 [0x20, 0x200B, 0x09, 0xA0, 0x3000, 0xFEFF]
    (by decide)

/-- C3: for every sequence `xs`, `UniqueOf xs` contains no two equal elements: no value occurs
at two different positions of the result. -/
theorem C3_UniqueOf_no_duplicates {α : Type} [DecidableEq α] (xs : List α) :
    (UniqueOf xs).Nodup ∧
      ∀ i j : Nat, i < j → j < (UniqueOf xs).length → (UniqueOf xs)[i]? ≠ (UniqueOf xs)[j]? :=
  ⟨UniqueOf_nodup xs, fun i j hij hj => List.nodup_iff_getElem?_ne_getElem?.1
    (UniqueOf_nodup xs) i j hij hj⟩

/-- C4: for every sequence `xs`, `UniqueOf xs` is a subsequence of `xs` and loses no value: a
value occurs in `UniqueOf xs` if and only if it occurs in `xs`. -/
theorem C4_UniqueOf_sublist_same_values {α : Type} [DecidableEq α] (xs : List α) :
    List.Sublist (UniqueOf xs) xs ∧ ∀ v, v ∈ UniqueOf xs ↔ v ∈ xs :=
  ⟨UniqueOf_sublist xs, UniqueOf_mem_iff xs⟩

/-- C5: for every input string `s`, the runes of `RemoveDuplicateSpaces s` have no two
consecutive white-space characters, the first and the last are not white space, and the only
white-space character among them is the ASCII space; white space is what `unicode.IsSpace`
accepts, which is exactly the listed set of runes. -/
theorem C5_RemoveDuplicateSpaces_collapsed :
    (∀ s : GoString,
      List.Chain' (fun a b => ¬(IsSpace a = true ∧ IsSpace b = true))
          (toRunes (RemoveDuplicateSpaces s)) ∧
        (∀ x, (toRunes (RemoveDuplicateSpaces s)).head? = some x → IsSpace x = false) ∧
        (∀ x, (toRunes (RemoveDuplicateSpaces s)).getLast? = some x → IsSpace x = false) ∧
        (∀ x ∈ toRunes (RemoveDuplicateSpaces s), IsSpace x = true → x = 0x20)) ∧
    (∀ r : Nat, IsSpace r = true ↔
      (r ∈ [0x09, 0x0A, 0x0B, 0x0C, 0x0D, 0x20, 0x85, 0xA0, 0x1680, 0x2028, 0x2029, 0x202F,
          0x205F, 0x3000] ∨ (0x2000 ≤ r ∧ r ≤ 0x200A))) :=
  ⟨RemoveDuplicateSpaces_collapsed, IsSpace_iff⟩

/-- Counterexample to C6 as stated: on the five bytes `E2 80 C2 A0 8B` (not valid UTF-8) the
single replacement pass deletes the no-break space `C2 A0`, and the bytes left, `E2 80 8B`,
are the zero-width space, which the result therefore contains. -/
theorem C6_counterexample :
    RemoveDuplicateSpaces [0xE2, 0x80, 0xC2, 0xA0, 0x8B] = EncodeRune zeroWidthSpace ∧
      zeroWidthSpace ∈ toRunes (RemoveDuplicateSpaces [0xE2, 0x80, 0xC2, 0xA0, 0x8B]) ∧
      zeroWidthSpace ∈ denylist := by
  decide

/-- C6, amended: for every input string `s` that is valid UTF-8, the result of
`RemoveDuplicateSpaces s` contains none of the seven denylisted characters. -/
theorem C6_RemoveDuplicateSpaces_no_denylisted_of_valid (s : GoString)
    (h : ValidString s = true) : ∀ c ∈ toRunes (RemoveDuplicateSpaces s), c ∉ denylist :=
  RemoveDuplicateSpaces_no_denylisted s h

/-- Witness for C6, amended, at `"a\u200B \uFEFFb\u00A0c"`. -/
theorem C6_RemoveDuplicateSpaces_no_denylisted_of_valid_witness :
    ValidString (goString "a\u200B \uFEFFb\u00A0c") = true ∧
      ∀ c ∈ toRunes (RemoveDuplicateSpaces (goString "a\u200B \uFEFFb\u00A0c")), c ∉ denylist :=
  ⟨by decide, C6_RemoveDuplicateSpaces_no_denylisted_of_valid _ (by decide)⟩

/-- Counterexample to C7 as stated: on the four bytes `E2 80 20 80` (not valid UTF-8) the
fields are `E2 80` and `80`, and joining them with no separator gives `E2 80 80`, the
white-space character U+2000. -/
theorem C7_counterexample :
    RemoveAllSpaces [0xE2, 0x80, 0x20, 0x80] = EncodeRune 0x2000 ∧
      0x2000 ∈ toRunes (RemoveAllSpaces [0xE2, 0x80, 0x20, 0x80]) ∧
      IsSpace 0x2000 = true := by
  decide

/-- C7, amended: for every input string `s` that is valid UTF-8, `RemoveAllSpaces s` contains
no white-space character at all. -/
theorem C7_RemoveAllSpaces_no_space_of_valid (s : GoString) (h : ValidString s = true) :
    ∀ c ∈ toRunes (RemoveAllSpaces s), IsSpace c = false :=
  RemoveAllSpaces_no_space s h

/-- Witness for C7, amended, at `" a\u2003b\t\u00A0 c\n"`. -/
theorem C7_RemoveAllSpaces_no_space_of_valid_witness :
    ValidString (goString " a\u2003b\t\u00A0 c\n") = true ∧
      ∀ c ∈ toRunes (RemoveAllSpaces (goString " a\u2003b\t\u00A0 c\n")), IsSpace c = false :=
  ⟨by decide, C7_RemoveAllSpaces_no_space_of_valid _ (by decide)⟩

/-- Counterexample to C8 as stated: neither function is idempotent on every string.
`RemoveDuplicateSpaces` maps `E2 80 C2 A0 8B` to `E2 80 8B` and that to the empty string;
`RemoveAllSpaces` maps `E2 80 20 80` to `E2 80 80` and that to the empty string. -/
theorem C8_counterexample :
    RemoveDuplicateSpaces [0xE2, 0x80, 0xC2, 0xA0, 0x8B] = [0xE2, 0x80, 0x8B] ∧
      RemoveDuplicateSpaces (RemoveDuplicateSpaces [0xE2, 0x80, 0xC2, 0xA0, 0x8B]) = [] ∧
      RemoveAllSpaces [0xE2, 0x80, 0x20, 0x80] = [0xE2, 0x80, 0x80] ∧
      RemoveAllSpaces (RemoveAllSpaces [0xE2, 0x80, 0x20, 0x80]) = [] := by
  decide

/-- C8, amended: on every input string `s` that is valid UTF-8, `RemoveDuplicateSpaces` and
`RemoveAllSpaces` are idempotent. -/
theorem C8_idempotent_of_valid (s : GoString) (h : ValidString s = true) :
    RemoveDuplicateSpaces (RemoveDuplicateSpaces s) = RemoveDuplicateSpaces s ∧
      RemoveAllSpaces (RemoveAllSpaces s) = RemoveAllSpaces s :=
  ⟨RemoveDuplicateSpaces_idem s h, RemoveAllSpaces_idem s h⟩

/-- Witness for C8, amended, at `"  a\u200B  b\tc \u00A0"`. -/
theorem C8_idempotent_of_valid_witness :
    ValidString (goString "  a\u200B  b\tc \u00A0") = true ∧
      RemoveDuplicateSpaces (RemoveDuplicateSpaces (goString "  a\u200B  b\tc \u00A0")) =
        RemoveDuplicateSpaces (goString "  a\u200B  b\tc \u00A0") ∧
      RemoveAllSpaces (RemoveAllSpaces (goString "  a\u200B  b\tc \u00A0")) =
        RemoveAllSpaces (goString "  a\u200B  b\tc \u00A0") :=
  ⟨by decide, C8_idempotent_of_valid _ (by decide)⟩

/-- C9: `UniqueOf` is idempotent: for every sequence `xs`,
`UniqueOf (UniqueOf xs) = UniqueOf xs`. -/
theorem C9_UniqueOf_idempotent {α : Type} [DecidableEq α] (xs : List α) :
    UniqueOf (UniqueOf xs) = UniqueOf xs :=
  UniqueOf_of_nodup (UniqueOf xs) (UniqueOf_nodup xs)

/-- Counterexample to C10 as stated: on the five bytes `E2 80 C2 A0 80` (not valid UTF-8) the
only denylisted or white-space character is the no-break space `C2 A0`, so the claimed result
is `E2 80 80`; the code returns the empty string, because once `C2 A0` is deleted the
remaining bytes read as the white-space character U+2000. -/
theorem C10_counterexample :
    RemoveAllSpaces [0xE2, 0x80, 0xC2, 0xA0, 0x80] = [] ∧
      specRemoveAllSpaces [0xE2, 0x80, 0xC2, 0xA0, 0x80] = [0xE2, 0x80, 0x80] := by
  decide

/-- C10, amended: for every input string `s` that is valid UTF-8, `RemoveAllSpaces s` equals
`s` with every denylisted character and every white-space character deleted and every other
character kept, in the original order; in particular `"a b  c"` gives `"abc"` and the empty
string gives the empty string. -/
theorem C10_RemoveAllSpaces_spec_of_valid :
    (∀ s : GoString, ValidString s = true → RemoveAllSpaces s = specRemoveAllSpaces s) ∧
    RemoveAllSpaces (goString "a b  c") = goString "abc" ∧
    RemoveAllSpaces [] = [] :=
  ⟨RemoveAllSpaces_eq_spec, by decide, by decide⟩

/-- Witness for C10, amended, at `"a\u200B b\u3000\uFEFFc"`. -/
theorem C10_RemoveAllSpaces_spec_of_valid_witness :
    ValidString (goString "a\u200B b\u3000\uFEFFc") = true ∧
      RemoveAllSpaces (goString "a\u200B b\u3000\uFEFFc") =
        specRemoveAllSpaces (goString "a\u200B b\u3000\uFEFFc") :=
  ⟨by decide, C10_RemoveAllSpaces_spec_of_valid.1 _ (by decide)⟩

/-- C11: for every sequence `xs`, `UniqueOf xs` is a longest duplicate-free subsequence of
`xs`: it is a duplicate-free subsequence, every duplicate-free subsequence of `xs` is at most
as long, and its length is the number of distinct values in `xs`. -/
theorem C11_UniqueOf_longest {α : Type} [DecidableEq α] (xs : List α) :
    (List.Sublist (UniqueOf xs) xs ∧ (UniqueOf xs).Nodup) ∧
      (∀ ys : List α, List.Sublist ys xs → ys.Nodup → ys.length ≤ (UniqueOf xs).length) ∧
      (UniqueOf xs).length = xs.toFinset.card :=
  ⟨⟨UniqueOf_sublist xs, UniqueOf_nodup xs⟩, fun ys h1 h2 => UniqueOf_length_max xs ys h1 h2,
    UniqueOf_length_eq_card xs⟩

/-- Witness for C11: the duplicate-free subsequence `[1, 3, 2]` of `[1, 2, 3, 2, 1]` is no
longer than `UniqueOf [1, 2, 3, 2, 1]`. -/
theorem C11_UniqueOf_longest_witness :
    [1, 3, 2].length ≤ (UniqueOf [1, 2, 3, 2, 1]).length :=
  (C11_UniqueOf_longest [1, 2, 3, 2, 1]).2.1 [1, 3, 2] (by decide) (by decide)

/-- Counterexample to C12 as stated: a sequence holding a slice, and one holding a map, are
well-typed arguments (the constraint is `any`), and on them `UniqueOf` neither returns an error
nor a value: it panics at the map access. -/
theorem C12_counterexample :
    hashable (GoValue.slice [GoAny.int 1]) = false ∧
      UniqueOfDyn [GoValue.basic (GoAny.int 1), GoValue.slice [GoAny.int 1]] =
        Outcome.panicked "runtime error: hash of unhashable type" ∧
      UniqueOfDyn [GoValue.mapv [(GoAny.str "k", GoAny.int 1)]] =
        Outcome.panicked "runtime error: hash of unhashable type" := by
  decide

/-- C12, amended: over comparable elements `UniqueOf` is total and never fails, it returns the
de-duplicated sequence; a sequence containing an element that is not comparable is accepted by
the type constraint `any`, and on it `UniqueOf` returns no error but panics with the run-time
error of hashing an unhashable type. -/
theorem C12_UniqueOf_total_or_panics :
    (∀ xs : List GoValue, (∀ v ∈ xs, hashable v = true) →
      UniqueOfDyn xs = Outcome.returned (UniqueOf xs)) ∧
    (∀ xs : List GoValue, (∃ v ∈ xs, hashable v = false) →
      UniqueOfDyn xs = Outcome.panicked "runtime error: hash of unhashable type") :=
  ⟨UniqueOfDyn_of_hashable, UniqueOfDyn_of_unhashable⟩

/-- Witness for C12, amended: a sequence of comparable values is de-duplicated, and one that
also holds a slice panics. -/
theorem C12_UniqueOf_total_or_panics_witness :
    UniqueOfDyn [GoValue.basic (GoAny.int 1), GoValue.structv [GoAny.str "a"],
        GoValue.basic (GoAny.int 1)] =
      Outcome.returned (UniqueOf [GoValue.basic (GoAny.int 1), GoValue.structv [GoAny.str "a"],
        GoValue.basic (GoAny.int 1)]) ∧
    UniqueOfDyn [GoValue.basic (GoAny.int 1), GoValue.slice []] =
      Outcome.panicked "runtime error: hash of unhashable type" :=
  ⟨C12_UniqueOf_total_or_panics.1 _ (by decide),
    C12_UniqueOf_total_or_panics.2 _ ⟨GoValue.slice [], by decide, by decide⟩⟩

/-- C13: for every type `T`, `ValueOf` applied to a `nil` reference returns the zero value of
`T` (`0` for `int`, `""` for `string`, `0.0` for `float64`), and applied to a reference to `v`
it returns `v`; it is a total function. -/
theorem C13_ValueOf_zero_or_value :
    (∀ (α : Type) [GoZero α] (h : Heap α), ValueOf h none = GoZero.zero) ∧
    (∀ (α : Type) [GoZero α] (h : Heap α) (p : Ptr) (v : α),
      h.deref p = some v → ValueOf h p = v) ∧
    (∀ (α : Type) [GoZero α] (h : Heap α) (v : α),
      ValueOf (PointerOf h v).2 (PointerOf h v).1 = v) ∧
    ((GoZero.zero : Int) = 0 ∧ (GoZero.zero : String) = "" ∧ (GoZero.zero : Float) = 0.0) :=
  ⟨fun _ _ h => ValueOf_nil h, fun _ _ h p v hp => ValueOf_deref h p v hp,
    fun _ _ h v => ValueOf_deref _ _ v (PointerOf_deref h v), rfl, rfl, rfl⟩

/-- Witness for C13, on the cases of `TestValueOf`: a reference to the second of two variables,
which holds `5`, gives `5`. -/
theorem C13_ValueOf_zero_or_value_witness :
    ValueOf (Heap.mk [(3 : Int), 5]) (some 1) = 5 :=
  C13_ValueOf_zero_or_value.2.1 Int (Heap.mk [3, 5]) (some 1) 5 (by decide)

/-- Counterexample to C14 as stated: two calls of `PointerOf` on the value `5` give two
distinct references to equal values; they are structurally equal, and `UniqueOf` keeps
both. -/
theorem C14_counterexample :
    (PointerOf (Heap.mk []) (GoAny.int 5)).1 = some 0 ∧
      (PointerOf (PointerOf (Heap.mk []) (GoAny.int 5)).2 (GoAny.int 5)) =
        (some 1, Heap.mk [GoAny.int 5, GoAny.int 5]) ∧
      deepEq (Heap.mk [GoAny.int 5, GoAny.int 5]) (GoValue.ptr (some 0))
        (GoValue.ptr (some 1)) = true ∧
      UniqueOf [GoValue.ptr (some 0), GoValue.ptr (some 1)] =
        [GoValue.ptr (some 0), GoValue.ptr (some 1)] := by
  refine ⟨rfl, rfl, by decide, by decide⟩

/-- C14, amended: `UniqueOf` decides duplicates by Go's `==`: on every sequence of comparable
values an element is kept exactly when no earlier element is `==` to it. For values that are
not pointers `==` is structural equality, so two composite values with equal fields are the
same value and only the first is kept; pointers are compared by address, so two distinct
references are two values, whatever they refer to, and both are kept. -/
theorem C14_UniqueOf_go_equality :
    (∀ xs : List GoValue, (∀ v ∈ xs, hashable v = true) →
      UniqueOfDyn xs = Outcome.returned (firstOccurrences xs)) ∧
    (∀ (h : Heap GoAny) (a b : GoValue), isPtr a = false → isPtr b = false →
      (deepEq h a b = true ↔ a = b)) ∧
    (∀ p q : Ptr, p ≠ q →
      UniqueOf [GoValue.ptr p, GoValue.ptr q] = [GoValue.ptr p, GoValue.ptr q]) ∧
    (∀ p : Ptr, UniqueOf [GoValue.ptr p, GoValue.ptr p] = [GoValue.ptr p]) ∧
    UniqueOf [GoValue.structv [GoAny.int 1, GoAny.str "a"],
        GoValue.structv [GoAny.int 1, GoAny.str "a"],
        GoValue.structv [GoAny.int 2, GoAny.str "a"]] =
      [GoValue.structv [GoAny.int 1, GoAny.str "a"],
        GoValue.structv [GoAny.int 2, GoAny.str "a"]] :=
  ⟨fun xs h => by rw [UniqueOfDyn_of_hashable xs h, UniqueOf_eq_firstOccurrences],
    deepEq_iff_eq, UniqueOf_two_pointers, UniqueOf_same_pointer, by decide⟩

/-- Witness for C14, amended: two struct values with equal fields are one value, two distinct
pointers are two. -/
theorem C14_UniqueOf_go_equality_witness :
    UniqueOfDyn [GoValue.structv [GoAny.int 1], GoValue.structv [GoAny.int 1]] =
        Outcome.returned
          (firstOccurrences [GoValue.structv [GoAny.int 1], GoValue.structv [GoAny.int 1]]) ∧
      UniqueOf [GoValue.ptr (some 0), GoValue.ptr (some 1)] =
        [GoValue.ptr (some 0), GoValue.ptr (some 1)] :=
  ⟨C14_UniqueOf_go_equality.1 _ (by decide),
    C14_UniqueOf_go_equality.2.2.1 (some 0) (some 1) (by decide)⟩

/-- C15: the code at the failing input. A JSON request whose body the serializer of the echo
instance rejects with `echo.NewHTTPError(400, echo.Map{})` makes the default `BindBody` return
that error unchanged; its `Message` is a map, so `err.(*echo.HTTPError).Message.(string)`
panics and `BindBody`, and `Bind` through it, return no error at all, where the claim and the
doc comments of the methods promise an error. -/
theorem C15_binder_panics_on_map_message :
    EchoBinderWithValidation.BindBody
        (binderPassingOn { code := 400, message := GoValue.mapv [] }) (fun _ => none) () 0 =
      Outcome.panicked "interface conversion: interface {} is not string" ∧
    EchoBinderWithValidation.Bind
        (binderPassingOn { code := 400, message := GoValue.mapv [] }) (fun _ => none) 0 () =
      Outcome.panicked "interface conversion: interface {} is not string" := by
  decide

/-- C16: for every value `v` of every type `T`, `PointerOf(v)` returns a reference that is not
`nil` and whose referenced value equals `v`; the variables that existed before the call keep
their values, and the new reference differs from every reference to one of them. -/
theorem C16_PointerOf_reference {α : Type} (h : Heap α) (v : α) :
    (PointerOf h v).1 ≠ none ∧
      (PointerOf h v).2.deref (PointerOf h v).1 = some v ∧
      (∀ (p : Ptr) (w : α), h.deref p = some w →
        (PointerOf h v).2.deref p = some w ∧ p ≠ (PointerOf h v).1) :=
  ⟨by simp [PointerOf], PointerOf_deref h v, fun p w hp => PointerOf_keeps h v p w hp⟩

/-- Counterexample to C17 as stated: `u = E2 80` and `v = 80` are non-empty and contain neither
white space nor a denylisted character (ranging over them yields only `RuneError`), but with
the no-break space between them the result is the empty string, not `u ++ v`: once `C2 A0` is
deleted, the bytes `E2 80 80` read as the white-space character U+2000. -/
theorem C17_counterexample :
    toRunes [0xE2, 0x80] = [RuneError, RuneError] ∧ toRunes [0x80] = [RuneError] ∧
      IsSpace RuneError = false ∧ RuneError ∉ denylist ∧
      RemoveDuplicateSpaces ([0xE2, 0x80] ++ EncodeRune noBreakingSpace ++ [0x80]) = [] ∧
      [0xE2, 0x80] ++ [0x80] = [0xE2, 0x80, 0x80] := by
  decide

/-- C17, amended: for all non-empty strings `u` and `v` of valid UTF-8 that contain no white
space and no denylisted character, and for every one of the seven denylisted characters `z`,
`RemoveDuplicateSpaces (u ++ z ++ v) = u ++ v`. -/
theorem C17_denylisted_between_words (u v : GoString) (hu : isWord u = true)
    (hv : isWord v = true) (z : Nat) (hz : z ∈ denylist) :
    RemoveDuplicateSpaces (u ++ EncodeRune z ++ v) = u ++ v :=
  RemoveDuplicateSpaces_around u v z hu hv hz

/-- Witness for C17, amended: `"foo"`, the no-break space, `"bar"`. -/
theorem C17_denylisted_between_words_witness :
    RemoveDuplicateSpaces (goString "foo" ++ EncodeRune noBreakingSpace ++ goString "bar") =
      goString "foo" ++ goString "bar" :=
  C17_denylisted_between_words (goString "foo") (goString "bar") (by decide) (by decide)
    noBreakingSpace (by decide)

/-- Counterexample to C18 as stated: on the specification's own example, a zero-width space
inserted between two words, the reversed pipeline and `RemoveDuplicateSpaces` return the same
result, because U+200B is not white space and so splits nothing. -/
theorem C18_counterexample :
    reversedPipeline (goString "foo\u200Bbar") = goString "foobar" ∧
      RemoveDuplicateSpaces (goString "foo\u200Bbar") = goString "foobar" := by
  decide

/-- C18, amended: the strip-before-split order is observable, but not on a zero-width space
placed directly between two words. For all words `u` and `v` (non-empty valid UTF-8 without
white space or denylisted characters): (1) there is an input on which the reversed pipeline
differs from `RemoveDuplicateSpaces`; (2) a no-break space U+00A0 directly between `u` and `v`
is one: the reversed pipeline gives `u`, a space, `v`, and `RemoveDuplicateSpaces` gives `u`
followed by `v`; (3) any other denylisted character `z` directly between `u` and `v`, the
zero-width space U+200B included, is none: both orders give `u` followed by `v`; (4) such a `z`
between `u` and `v` with one ASCII space on each side is one: the reversed pipeline gives `u`,
two spaces, `v`, and `RemoveDuplicateSpaces` gives `u`, one space, `v`; (5) such a `z` with an
ASCII space on one side only is none: both orders give `u`, one space, `v`; (6) on
`"a \u200B b"` the results are `"a  b"` and `"a b"`, and on `"a \u200B"` they are `"a "` and
`"a"`. -/
theorem C18_order_observable :
    (∃ s : GoString, reversedPipeline s ≠ RemoveDuplicateSpaces s) ∧
    (∀ u v : GoString, isWord u = true → isWord v = true →
      reversedPipeline (u ++ EncodeRune noBreakingSpace ++ v) = u ++ [0x20] ++ v ∧
      RemoveDuplicateSpaces (u ++ EncodeRune noBreakingSpace ++ v) = u ++ v ∧
      reversedPipeline (u ++ EncodeRune noBreakingSpace ++ v) ≠
        RemoveDuplicateSpaces (u ++ EncodeRune noBreakingSpace ++ v)) ∧
    (∀ u v : GoString, isWord u = true → isWord v = true →
      ∀ z ∈ denylist, z ≠ noBreakingSpace →
        reversedPipeline (u ++ EncodeRune z ++ v) = u ++ v ∧
        RemoveDuplicateSpaces (u ++ EncodeRune z ++ v) = u ++ v) ∧
    (∀ u v : GoString, isWord u = true → isWord v = true →
      ∀ z ∈ denylist, z ≠ noBreakingSpace →
        reversedPipeline (u ++ [0x20] ++ EncodeRune z ++ [0x20] ++ v) = u ++ [0x20, 0x20] ++ v ∧
        RemoveDuplicateSpaces (u ++ [0x20] ++ EncodeRune z ++ [0x20] ++ v) = u ++ [0x20] ++ v ∧
        reversedPipeline (u ++ [0x20] ++ EncodeRune z ++ [0x20] ++ v) ≠
          RemoveDuplicateSpaces (u ++ [0x20] ++ EncodeRune z ++ [0x20] ++ v)) ∧
    (∀ u v : GoString, isWord u = true → isWord v = true →
      ∀ z ∈ denylist, z ≠ noBreakingSpace →
        (reversedPipeline (u ++ [0x20] ++ EncodeRune z ++ v) = u ++ [0x20] ++ v ∧
          RemoveDuplicateSpaces (u ++ [0x20] ++ EncodeRune z ++ v) = u ++ [0x20] ++ v) ∧
        (reversedPipeline (u ++ EncodeRune z ++ [0x20] ++ v) = u ++ [0x20] ++ v ∧
          RemoveDuplicateSpaces (u ++ EncodeRune z ++ [0x20] ++ v) = u ++ [0x20] ++ v)) ∧
    ((reversedPipeline (goString "a \u200B b") = goString "a  b" ∧
        RemoveDuplicateSpaces (goString "a \u200B b") = goString "a b") ∧
      (reversedPipeline (goString "a \u200B") = goString "a " ∧
        RemoveDuplicateSpaces (goString "a \u200B") = goString "a")) := by
  refine ⟨⟨goString "foo\u00A0bar", by decide⟩, ?_, ?_, ?_, ?_, by decide⟩
  · intro u v hu hv
    have h1 :=
      reversedPipeline_around_space u v noBreakingSpace hu hv (by decide) (by decide)
    have h2 := RemoveDuplicateSpaces_around u v noBreakingSpace hu hv (by decide)
    refine ⟨h1, h2, ?_⟩
    rw [h1, h2]
    intro he
    simp at he
  · intro u v hu hv z hz hne
    exact ⟨reversedPipeline_around_nonspace u v z hu hv hz ((denylist_space z hz).2 hne),
      RemoveDuplicateSpaces_around u v z hu hv hz⟩
  · intro u v hu hv z hz hne
    obtain ⟨h1, h2⟩ := pipelines_spaced u v z hu hv hz ((denylist_space z hz).2 hne)
    refine ⟨h1, h2, ?_⟩
    rw [h1, h2]
    exact append_sep_ne u v [0x20, 0x20] [0x20] (by decide)
  · intro u v hu hv z hz hne
    exact ⟨pipelines_space_before u v z hu hv hz ((denylist_space z hz).2 hne),
      pipelines_space_after u v z hu hv hz ((denylist_space z hz).2 hne)⟩

/-- Witness for C18, amended: between `"foo"` and `"bar"` the no-break space separates the two
orders, the zero-width space alone does not, and the zero-width space with a space on each
side does. -/
theorem C18_order_observable_witness :
    (reversedPipeline (goString "foo" ++ EncodeRune noBreakingSpace ++ goString "bar") =
        goString "foo" ++ [0x20] ++ goString "bar" ∧
      RemoveDuplicateSpaces (goString "foo" ++ EncodeRune noBreakingSpace ++ goString "bar") =
        goString "foo" ++ goString "bar") ∧
    (reversedPipeline (goString "foo" ++ EncodeRune zeroWidthSpace ++ goString "bar") =
        goString "foo" ++ goString "bar" ∧
      RemoveDuplicateSpaces (goString "foo" ++ EncodeRune zeroWidthSpace ++ goString "bar") =
        goString "foo" ++ goString "bar") ∧
    (reversedPipeline
        (goString "foo" ++ [0x20] ++ EncodeRune zeroWidthSpace ++ [0x20] ++ goString "bar") =
        goString "foo" ++ [0x20, 0x20] ++ goString "bar" ∧
      RemoveDuplicateSpaces
        (goString "foo" ++ [0x20] ++ EncodeRune zeroWidthSpace ++ [0x20] ++ goString "bar") =
        goString "foo" ++ [0x20] ++ goString "bar") :=
  ⟨⟨(C18_order_observable.2.1 (goString "foo") (goString "bar") (by decide) (by decide)).1,
      (C18_order_observable.2.1 (goString "foo") (goString "bar") (by decide) (by decide)).2.1⟩,
    C18_order_observable.2.2.1 (goString "foo") (goString "bar") (by decide) (by decide)
      zeroWidthSpace (by decide) (by decide),
    ⟨(C18_order_observable.2.2.2.1 (goString "foo") (goString "bar") (by decide) (by decide)
        zeroWidthSpace (by decide) (by decide)).1,
      (C18_order_observable.2.2.2.1 (goString "foo") (goString "bar") (by decide) (by decide)
        zeroWidthSpace (by decide) (by decide)).2.1⟩⟩

/-- C19: for every caller name `n`, `PackageName` returns the part of the last `/`-separated
segment of `n` that precedes its first `.`; both index operations are in range, since
`strings.Split` never returns an empty slice, also for the empty name; for
`"github.com/dollarsignteam/go-utils_test.TestPackageName"` the result is
`"go-utils_test"`. -/
theorem C19_PackageName_segment :
    (∀ n : GoString, PackageName n = Outcome.returned (beforeFirstDot (lastSegment n))) ∧
    (∀ n : GoString, (Split n [0x2F]).length - 1 < (Split n [0x2F]).length) ∧
    (∀ seg : GoString, 0 < (Split seg [0x2E]).length) ∧
    PackageName [] = Outcome.returned [] ∧
    PackageName (goString "github.com/dollarsignteam/go-utils_test.TestPackageName") =
      Outcome.returned (goString "go-utils_test") :=
  ⟨PackageName_eq, fun n => Nat.sub_lt (Split_length_pos n _) Nat.one_pos,
    fun seg => Split_length_pos seg _, by decide, by decide⟩

end GoUtils
